import Mathlib

/-!
serverless-scraper: segmentation, retrieval budget, embedding scatter, dedup set.

A shallow embedding of `common/index.go` and `api/scrape/index.go`.

Conventions of the embedding
* Go `string` is `String`; Go `int` counters that only ever count matches are `Nat`
  (they are bounded by the byte length of the strings involved, far below `2^63`);
  `pageChunk.index` and `pageChunk.level` are `Int`.
* A Go panic is `Except.error`.
* A `float64` is carried as its bit pattern; no floating-point arithmetic is embedded.
  The ranking produced by `MulVec`, `Scale` and `floats.Argsort` enters as the
  parameter `originalIndices`.
* A Go `map[K]bool` is a function `Nat → Option Bool` (`none`: key absent).
* External calls (the embedding and completion providers) are function parameters.
-/

set_option linter.dupNamespace false

namespace Scraper

/-! ## Data model (`common/index.go`) -/

/-- A `float64`, represented by its bit pattern. -/
structure Float64 where
  bits : Nat
deriving DecidableEq, Repr

/-- Go `type Section struct`. -/
structure Section where
  Title : String
  Content : String
  Embedding : List Float64
deriving DecidableEq, Repr

/-- Go `type Page struct`. -/
structure Page where
  Route : String
  Title : String
  Sections : List Section
deriving DecidableEq, Repr

/-- Go `type Domain struct` (the database id plays no role here). -/
structure Domain where
  Domain : String
  Pages : List Page
deriving DecidableEq, Repr

/-- Go `type Conversation struct` (ids omitted). -/
structure Conversation where
  Prompt : String
  Log : List String
deriving DecidableEq, Repr

/-- Go `map[int]bool` / `map[uint32]bool`: `none` means the key is absent. -/
abbrev BoolMap := Nat → Option Bool

/-- The empty map, `make(map[int]bool, 0)` or `map[uint32]bool{}`. -/
def emptyMap : BoolMap := fun _ => none

/-- The assignment `m[k] = true`. -/
def setTrue (m : BoolMap) (k : Nat) : BoolMap := Function.update m k (some true)

/-- The test `val, ok := m[i]; ok && val`. -/
def isSet (m : BoolMap) (i : Nat) : Bool := m i == some true

/-! ## `CountPseudoTokens` -/

/-- The class `\w` of Go's `regexp`: ASCII letters, digits and underscore. -/
def isWordChar (c : Char) : Bool :=
  (48 ≤ c.toNat && c.toNat ≤ 57) || (65 ≤ c.toNat && c.toNat ≤ 90) ||
  (97 ≤ c.toNat && c.toNat ≤ 122) || c.toNat == 95

/-- Number of leftmost, non-overlapping, greedy matches of `\w+` in the rest of the
input; `inWord` tells whether the previous character belongs to the current match. -/
def countFrom (inWord : Bool) : List Char → Nat
  | [] => 0
  | c :: cs =>
    if isWordChar c then (if inWord then 0 else 1) + countFrom true cs
    else countFrom false cs

/-- Go `CountPseudoTokens`: `len(regexp.MustCompile("\\w+").FindAllString(str, -1))`. -/
def CountPseudoTokens (str : String) : Nat := countFrom false str.data

/-- Go `(*Section).Zip`. -/
def Section.Zip (s : Section) : String := s.Title ++ s.Content

/-- Go `(*Conversation).ZipLog`. -/
def Conversation.ZipLog (c : Conversation) : String :=
  c.Log.foldl (fun str v => str ++ (v ++ "\n")) ""

/-! ## `GetConversationCompletion` -/

def EMBEDDING_LEN : Nat := 1536

def MAX_PSEUDO_TOKENS : Nat := 1500

/-- Lines 167-170: all sections of all pages, in page order then section order. -/
def flattenSections (pages : List Page) : List Section :=
  pages.foldl (fun chunks v => chunks ++ v.Sections) []

/-- Lines 176-179: the row-major data of the similarity matrix. -/
def rawMatrix (chunks : List Section) : List Float64 :=
  chunks.foldl (fun raw v => raw ++ v.Embedding) []

/-- The shape check of gonum `mat.NewDense(r, c, data)` for non-nil `data`. -/
def NewDense (r c : Nat) (data : List Float64) : Except String Unit :=
  if r = 0 ∨ c = 0 then .error "mat: zero length in matrix dimension"
  else if r * c ≠ data.length then .error "mat: dimension mismatch"
  else .ok ()

/-- The shape check of gonum `mat.NewVecDense(n, data)`; `none` is a nil slice, for
which a zero vector of length `n` is allocated. -/
def NewVecDense (n : Nat) (data : Option (List Float64)) : Except String Unit :=
  if n = 0 then .error "mat: zero length in matrix dimension"
  else match data with
    | none => .ok ()
    | some d => if d.length ≠ n then .error "mat: dimension mismatch" else .ok ()

/-- Lines 199-205: the walk over the ranked indices. Returns the final value of
`tokens` and the map `indicesToAdd`. `chunks[v]` panics when out of range. -/
def selectLoop (chunks : List Section) :
    List Nat → Nat → BoolMap → Except String (Nat × BoolMap)
  | [], tokens, indicesToAdd => .ok (tokens, indicesToAdd)
  | v :: rest, tokens, indicesToAdd =>
    match chunks[v]? with
    | none => .error "index out of range"
    | some c =>
      let tokens := tokens + CountPseudoTokens c.Zip
      if tokens > MAX_PSEUDO_TOKENS then .ok (tokens, indicesToAdd)
      else selectLoop chunks rest tokens (setTrue indicesToAdd v)

/-- Lines 196-205: "determine which docs to add". -/
def selectIndices (chunks : List Section) (query : String) (originalIndices : List Nat) :
    Except String (Nat × BoolMap) :=
  selectLoop chunks originalIndices (CountPseudoTokens query) emptyMap

/-- Lines 208-213: the loop "add them back in original order"; `i` is the loop index
of the head of the remaining chunks. -/
def contextLoop (indicesToAdd : BoolMap) : List Section → Nat → String → String
  | [], _, prompt => prompt
  | v :: rest, i, prompt =>
    contextLoop indicesToAdd rest (i + 1)
      (if isSet indicesToAdd i then prompt ++ ("\n\n" ++ v.Zip) else prompt)

/-- The fixed instruction text of line 217. -/
def instructions : String :=
  "\n\nYou are a chatbot customer support agent for a company and should continue the conversation in a cordial and professional manner using the information provided above alone to guide your responses. If you don't know the answer or the information is not provided above, refer the customer to 800-403-8023. Do not go off-topic or talk about irrelevant things--you are a customer service chatbot. Do not output an answer containing any markdown syntax."

/-- Lines 217-220: what is appended to the context. -/
def promptTail (query : String) : String :=
  instructions ++ "\n[Agent]: Hello! What can I do for you today?" ++ ("\n" ++ query)
    ++ "\n[Agent]: "

/-- Lines 208-220: the whole prompt. -/
def buildPrompt (chunks : List Section) (indicesToAdd : BoolMap) (query : String) : String :=
  contextLoop indicesToAdd chunks 0 "" ++ promptTail query

/-- Go `GetConversationCompletion`, up to the prompt handed to the completion provider.
`GetEmbedding` is the external embedding call (it may panic; `none` is a nil slice),
`originalIndices` is the content of that slice after `floats.Argsort`. -/
def conversationPrompt (GetEmbedding : String → Except String (Option (List Float64)))
    (originalIndices : List Nat) (conv : Conversation) (d : Domain) : Except String String :=
  let chunks := flattenSections d.Pages
  if chunks.length = 0 then .error "no domain found or domain empty"
  else
    match NewDense chunks.length EMBEDDING_LEN (rawMatrix chunks) with
    | .error e => .error e
    | .ok _ =>
      let query := conv.ZipLog
      match GetEmbedding query with
      | .error e => .error e
      | .ok embeddingRaw =>
        match NewVecDense EMBEDDING_LEN embeddingRaw with
        | .error e => .error e
        | .ok _ =>
          match selectIndices chunks query originalIndices with
          | .error e => .error e
          | .ok (_, indicesToAdd) => .ok (buildPrompt chunks indicesToAdd query)

/-- Go `GetConversationCompletion`; `GetAgentCompletion` is the external completion call. -/
def GetConversationCompletion (GetEmbedding : String → Except String (Option (List Float64)))
    (originalIndices : List Nat) (GetAgentCompletion : String → Except String String)
    (conv : Conversation) (d : Domain) : Except String String :=
  match conversationPrompt GetEmbedding originalIndices conv d with
  | .error e => .error e
  | .ok prompt => GetAgentCompletion prompt

/-- Pseudo-token count of the section at flattened index `i` (zero outside the list). -/
def sectionTokens (chunks : List Section) (i : Nat) : Nat :=
  match chunks[i]? with
  | some c => CountPseudoTokens c.Zip
  | none => 0

/-- Cumulative pseudo-token count of the sections whose indices are listed. -/
def cumulativeTokens (chunks : List Section) (idx : List Nat) : Nat :=
  (idx.map (sectionTokens chunks)).sum

/-- Pseudo-token count of the section at which the walk stopped after accepting the
first `k` ranked indices (zero when the ranked list was exhausted). -/
def stopTokens (chunks : List Section) (ranked : List Nat) (k : Nat) : Nat :=
  match ranked[k]? with
  | some v => sectionTokens chunks v
  | none => 0

/-- A text of exactly `n` pseudo-tokens. -/
def wordsText : Nat → String
  | 0 => ""
  | n + 1 => "w " ++ wordsText n

/-- The scenario of the retrieval budget: three sections of 100, 2000 and 50
pseudo-tokens, in flattened order. -/
def scenarioChunks : List Section :=
  [⟨"", wordsText 100, []⟩, ⟨"", wordsText 2000, []⟩, ⟨"", wordsText 50, []⟩]

/-- The query of the scenario: 10 pseudo-tokens. -/
def scenarioQuery : String := wordsText 10

/-- Sum of the pseudo-token counts of the selected sections, read in flattened order. -/
def selectedTokens (chunks : List Section) (indicesToAdd : BoolMap) : Nat :=
  (((List.range chunks.length).filter (isSet indicesToAdd)).map (sectionTokens chunks)).sum

/-- A corpus of one section holding a single pseudo-token. -/
def tinyChunks : List Section := [⟨"", wordsText 1, []⟩]

/-- A query of 1502 pseudo-tokens. -/
def longQuery : String := wordsText 1502

/-- Title+Content of the section at flattened index `i` (empty outside the list). -/
def zipAt (chunks : List Section) (i : Nat) : String :=
  match chunks[i]? with
  | some c => c.Zip
  | none => ""

/-- Concatenation of a list of strings, left to right. -/
def concatStrings : List String → String
  | [] => ""
  | s :: rest => s ++ concatStrings rest

/-- The flattened indices, in increasing order, that belong to the selected set. -/
def selectedInOrder (chunks : List Section) (indicesToAdd : BoolMap) : List Nat :=
  (List.range chunks.length).filter (isSet indicesToAdd)

/-- The context as the specification words it: over the selected flattened indices in
increasing order, the concatenation of a blank line followed by Title+Content. -/
def contextInOriginalOrder (chunks : List Section) (indicesToAdd : BoolMap) : String :=
  concatStrings ((selectedInOrder chunks indicesToAdd).map (fun i => "\n\n" ++ zipAt chunks i))

/-! ## `processPage` (`api/scrape/index.go`) -/

/-- Go `type pageChunk struct`. -/
structure pageChunk where
  route : String
  text : String
  index : Int
  level : Int
deriving DecidableEq, Repr

def MAX_SECTION_PSEUDO_TOKENS : Nat := 600

/-- Lines 115-117: `sort.Slice` by `index`. The order of chunks with equal `index` is
left open by `sort.Slice`; here equal indices keep their input order. -/
def sortByIndex (a : List pageChunk) : List pageChunk :=
  a.insertionSort (fun x y => x.index ≤ y.index)

/-- Lines 120-126: "filter empty chunks", `len(v.text) > 0`. -/
def filterEmptyChunks (a : List pageChunk) : List pageChunk :=
  a.filter (fun v => decide (v.text.utf8ByteSize > 0))

/-- Go `strings.Repeat`, which panics on a negative count. -/
def stringsRepeat (s : String) (count : Int) : Except String String :=
  if count < 0 then .error "strings: negative Repeat count"
  else .ok (concatStrings (List.replicate count.toNat s))

/-- Lines 131-135: the body of the "append leaders" loop. -/
def appendLeader (v : pageChunk) : Except String pageChunk :=
  if v.level < 7 then
    match stringsRepeat "#" v.level with
    | .error e => .error e
    | .ok leader => .ok { v with text := leader ++ " " ++ v.text }
  else .ok v

/-- Lines 129-137: "append leaders". -/
def appendLeaders : List pageChunk → Except String (List pageChunk)
  | [] => .ok []
  | v :: rest =>
    match appendLeader v with
    | .error e => .error e
    | .ok w =>
      match appendLeaders rest with
      | .error e => .error e
      | .ok ws => .ok (w :: ws)

/-- The variables of the loop of lines 149-170. -/
structure FoldState where
  sections : List Section
  ptr : Nat
  runningTokenCt : Nat
deriving Repr

/-- Lines 140-148: the state before the loop, holding the sentinel section. -/
def initialFoldState : FoldState :=
  { sections := [⟨"", "", []⟩], ptr := 0, runningTokenCt := 0 }

/-- Lines 150-169: one iteration of the loop. Indexing `sections` out of range panics. -/
def foldStep (st : FoldState) (v : pageChunk) : Except String FoldState :=
  if v.level < 3 then
    .ok { ptr := st.ptr + 1
          sections := st.sections ++ [⟨v.text, "", []⟩]
          runningTokenCt := CountPseudoTokens v.text }
  else if st.runningTokenCt > MAX_SECTION_PSEUDO_TOKENS then
    match st.sections[st.ptr + 1 - 1]? with
    | none => .error "index out of range"
    | some prev =>
      .ok { ptr := st.ptr + 1
            sections := st.sections ++ [⟨prev.Title ++ " CONTINUED", v.text, []⟩]
            runningTokenCt := CountPseudoTokens v.text }
  else
    match st.sections[st.ptr]? with
    | none => .error "index out of range"
    | some cur =>
      .ok { ptr := st.ptr
            sections := st.sections.set st.ptr
              { cur with Content := cur.Content ++ ("\n\n" ++ v.text) }
            runningTokenCt := st.runningTokenCt + CountPseudoTokens v.text }

/-- Lines 149-170: the loop over the prepared chunks. -/
def foldChunks : FoldState → List pageChunk → Except String FoldState
  | st, [] => .ok st
  | st, v :: rest =>
    match foldStep st v with
    | .error e => .error e
    | .ok st2 => foldChunks st2 rest

/-- Lines 114-137: sort, filter and prefix the chunks. -/
def prepareChunks (a : List pageChunk) : Except String (List pageChunk) :=
  appendLeaders (filterEmptyChunks (sortByIndex a))

/-- Lines 114-170: the sections built by the fold, the sentinel included. -/
def foldSections (a : List pageChunk) : Except String (List Section) :=
  match prepareChunks a with
  | .error e => .error e
  | .ok prepared =>
    match foldChunks initialFoldState prepared with
    | .error e => .error e
    | .ok st => .ok st.sections

/-- Lines 174-179: "filter out empty subpages". -/
def filterEmptySections (sections : List Section) : List Section :=
  sections.filter (fun v => decide (v.Content.utf8ByteSize > 0))

/-- Lines 171-191: drop the first section, filter, and pick the title. -/
def finishPage (built : List Section) : Page :=
  let sections := built.drop 1
  let nonEmptySections := filterEmptySections sections
  let title := match sections with
    | [] => "untitled"
    | first :: _ => first.Title
  { Route := "", Title := title, Sections := nonEmptySections }

/-- Go `processPage`. -/
def processPage (a : List pageChunk) : Except String Page :=
  match foldSections a with
  | .error e => .error e
  | .ok built => .ok (finishPage built)

/-! ## A record of what the fold did, used to state and prove the segmentation claims -/

/-- The chunk texts, each preceded by a blank line: the content of a section opened by
a heading after the chunks were appended to it. -/
def joinBlank : List String → String
  | [] => ""
  | t :: rest => ("\n\n" ++ t) ++ joinBlank rest

/-- What one section of the fold received: its title, the top-level heading chunk that
opened it (if any), the chunk that seeded it as a continuation (if any), and the chunks
appended to it afterwards, in order. -/
structure SectionTrace where
  title : String
  heading : Option pageChunk
  seed : Option pageChunk
  appended : List pageChunk
deriving DecidableEq, Repr

/-- The text a continuation was seeded with (empty for the other sections). -/
def SectionTrace.seedText (g : SectionTrace) : String :=
  match g.seed with
  | some c => c.text
  | none => ""

def SectionTrace.content (g : SectionTrace) : String :=
  g.seedText ++ joinBlank (g.appended.map (fun c => c.text))

def SectionTrace.toSection (g : SectionTrace) : Section :=
  ⟨g.title, g.content, []⟩

/-- The value `runningTokenCt` was reset to when the section was opened. -/
def SectionTrace.base (g : SectionTrace) : Nat :=
  match g.seed with
  | some c => CountPseudoTokens c.text
  | none => CountPseudoTokens g.title

/-- Sum of the pseudo-token counts of a list of chunks. -/
def chunkTokens (cs : List pageChunk) : Nat :=
  (cs.map (fun c => CountPseudoTokens c.text)).sum

def SectionTrace.counter (g : SectionTrace) : Nat :=
  g.base + chunkTokens g.appended

/-- The body chunks of a section: the seed, then the appended chunks. -/
def SectionTrace.body (g : SectionTrace) : List pageChunk :=
  g.seed.toList ++ g.appended

/-- All chunks of a section in reading order: heading, then body. -/
def SectionTrace.chunks (g : SectionTrace) : List pageChunk :=
  g.heading.toList ++ g.body

/-- The record of the sentinel section of line 142. -/
def sentinelTrace : SectionTrace := ⟨"", none, none, []⟩

/-- One iteration of the loop on the records; the current section is kept apart from
the finished ones. -/
def traceStep (done : List SectionTrace) (cur : SectionTrace) (v : pageChunk) :
    List SectionTrace × SectionTrace :=
  if v.level < 3 then (done ++ [cur], ⟨v.text, some v, none, []⟩)
  else if cur.counter > MAX_SECTION_PSEUDO_TOKENS then
    (done ++ [cur], ⟨cur.title ++ " CONTINUED", none, some v, []⟩)
  else (done, { cur with appended := cur.appended ++ [v] })

def traceFold : List SectionTrace → SectionTrace → List pageChunk →
    List SectionTrace × SectionTrace
  | done, cur, [] => (done, cur)
  | done, cur, v :: rest => traceFold (traceStep done cur v).1 (traceStep done cur v).2 rest

/-- The loop variables that correspond to a list of records. -/
def stateOf (done : List SectionTrace) (cur : SectionTrace) : FoldState :=
  { sections := (done ++ [cur]).map SectionTrace.toSection
    ptr := done.length
    runningTokenCt := cur.counter }

/-- The soft ceiling on one record: when its last appended chunk arrived, the running
counter was at most the ceiling. -/
def SectionTrace.soft (g : SectionTrace) : Prop :=
  ∀ init last, g.appended = init ++ [last] →
    g.base + chunkTokens init ≤ MAX_SECTION_PSEUDO_TOKENS

/-- The two ways a section other than the sentinel is opened: by a top-level heading,
whose text is the title, or as a continuation seeded with a body chunk. -/
def SectionTrace.opened (g : SectionTrace) : Prop :=
  (∃ h, g.heading = some h ∧ g.seed = none ∧ g.title = h.text) ∨
  (g.heading = none ∧ ∃ c, g.seed = some c)

/-- The records of all sections the fold builds from the prepared chunks, the sentinel
first. -/
def traceOf (prepared : List pageChunk) : List SectionTrace :=
  (traceFold [] sentinelTrace prepared).1 ++ [(traceFold [] sentinelTrace prepared).2]

/-- The content of a continuation: the seed text, then the other texts each preceded by
a blank line. -/
def joinSeeded : List String → String
  | [] => ""
  | t :: rest => t ++ joinBlank rest

/-- The content made of the given chunk texts, for a continuation (`seeded`) or for a
section opened by a heading. -/
def renderBody (seeded : Bool) (ts : List String) : String :=
  if seeded then joinSeeded ts else joinBlank ts

/-- A page that starts with a paragraph before its first heading. -/
def leadingParagraphPage : List pageChunk :=
  [⟨"/", "intro", 0, 7⟩, ⟨"/", "A", 1, 1⟩, ⟨"/", "text", 2, 7⟩]

/-- The chunks read off a list of sections described by their heading chunk (if any)
and body chunks: for each section the heading, then the body, in order. -/
def readingOrder (reading : List (Option pageChunk × List pageChunk)) : List pageChunk :=
  reading.flatMap (fun t => t.1.toList ++ t.2)

/-- A section is rendered from its heading chunk and body chunks: a section opened by
a heading has the heading text as title and every body text preceded by a blank line
as content; a continuation has its body texts joined by blank lines as content. -/
def renderedFrom (s : Section) (t : Option pageChunk × List pageChunk) : Prop :=
  match t.1 with
  | some h => s.Title = h.text ∧ s.Content = renderBody false (t.2.map (fun c => c.text))
  | none => t.2 ≠ [] ∧ s.Content = renderBody true (t.2.map (fun c => c.text))

instance indexLe_isTotal : IsTotal pageChunk (fun x y => x.index ≤ y.index) :=
  ⟨fun x y => Int.le_total x.index y.index⟩

instance indexLe_isTrans : IsTrans pageChunk (fun x y => x.index ≤ y.index) :=
  ⟨fun _ _ _ hxy hyz => Int.le_trans hxy hyz⟩

/-- The page `<h1>A</h1><p>text1</p><h2>B</h2><p>text2</p>` as the crawler hands it
over. -/
def twoSectionPage : List pageChunk :=
  [⟨"/", "A", 0, 1⟩, ⟨"/", "text1", 1, 7⟩, ⟨"/", "B", 2, 2⟩, ⟨"/", "text2", 3, 7⟩]

/-- The heading marker of line 133 for levels 1 and 2, with its separating space. -/
def leaderOf (level : Int) : String :=
  if level = 1 then "# " else "## "

/-! ## `summarize` (`api/scrape/index.go`) -/

/-- Lines 305-311: the request items, one per section. -/
def summarizeItems (content : List Page) : List String :=
  content.foldl (fun items v => v.Sections.foldl (fun items s => items ++ [s.Zip]) items) []

/-- Lines 325-329: the inner loop over the sections of one page, from counter `k`.
Returns the updated sections and the counter; `res.Data[k]` panics when out of range. -/
def scatterSections (data : List (List Float64)) :
    List Section → Nat → Except String (List Section × Nat)
  | [], k => .ok ([], k)
  | sec :: rest, k =>
    match data[k]? with
    | none => .error "index out of range"
    | some embedding =>
      match scatterSections data rest (k + 1) with
      | .error e => .error e
      | .ok (rest2, k2) => .ok ({ sec with Embedding := embedding } :: rest2, k2)

/-- Lines 324-332: the outer loop over the pages. -/
def scatterPages (data : List (List Float64)) : List Page → Nat → Except String (List Page)
  | [], _ => .ok []
  | page :: rest, k =>
    match scatterSections data page.Sections k with
    | .error e => .error e
    | .ok (sections, k2) =>
      match scatterPages data rest k2 with
      | .error e => .error e
      | .ok rest2 => .ok ({ page with Sections := sections } :: rest2)

/-- Go `summarize`; `CreateEmbeddings` is the external embedding call, returning the
`Embedding` fields of `res.Data` in order, or an error on which `summarize` panics. -/
def summarize (CreateEmbeddings : List String → Except String (List (List Float64)))
    (content : List Page) : Except String (List Page) :=
  match CreateEmbeddings (summarizeItems content) with
  | .error e => .error e
  | .ok data => scatterPages data content 0

/-- A section with its embedding replaced. -/
def withEmbedding (s : Section) (e : List Float64) : Section :=
  { s with Embedding := e }

/-- A corpus of two pages holding three sections, not yet embedded. -/
def sampleContent : List Page :=
  [⟨"/", "# A", [⟨"# A", "\n\ntext1", []⟩, ⟨"## B", "\n\ntext2", []⟩]⟩,
   ⟨"/docs", "# C", [⟨"# C", "\n\ntext3", []⟩]⟩]

/-- An embedder that answers every request with the vectors `[1]`, `[2]`, `[3]`. -/
def sampleEmbedder (_ : List String) : Except String (List (List Float64)) :=
  .ok [[⟨1⟩], [⟨2⟩], [⟨3⟩]]

/-! ## `ThreadSafeHashSet` (`common/index.go`) -/

/-- Go `hash`: 32-bit FNV-1a over the UTF-8 bytes of the key. -/
def hash (s : String) : Nat :=
  (s.data.flatMap String.utf8EncodeChar).foldl
    (fun h b => ((h ^^^ b.toNat) * 16777619) % 2 ^ 32) 2166136261

/-- Go `type ThreadSafeHashSet struct`; the mutex makes each call one atomic step and
has no other content. -/
structure ThreadSafeHashSet where
  state : BoolMap

/-- Go `(*ThreadSafeHashSet).Add`. -/
def ThreadSafeHashSet.Add (c : ThreadSafeHashSet) (key : String) : ThreadSafeHashSet :=
  { state := setTrue c.state (hash key) }

/-- Go `(*ThreadSafeHashSet).Has`: `_, ok := c.state[hash(key)]; return ok`. -/
def ThreadSafeHashSet.Has (c : ThreadSafeHashSet) (key : String) : Bool :=
  (c.state (hash key)).isSome

/-- Go `MakeThreadSafeHashSet`. -/
def MakeThreadSafeHashSet : ThreadSafeHashSet :=
  { state := emptyMap }

/-! ## Inputs for the claims about malformed embeddings -/

/-- A vector of `n` zero components. -/
def zeroVector (n : Nat) : List Float64 := List.replicate n ⟨0⟩

/-- A corpus of two sections whose embeddings have 1535 and 1537 components. -/
def skewedDomain : Domain :=
  { Domain := "example.com"
    Pages := [⟨"/", "# A", [⟨"# A", "\n\ntext1", zeroVector 1535⟩,
                              ⟨"## B", "\n\ntext2", zeroVector 1537⟩]⟩] }

/-- A conversation of one user turn. -/
def sampleConversation : Conversation :=
  { Prompt := "", Log := ["[User]: hello"] }

/-- An embedding provider that answers with a vector of the right length. -/
def sampleGetEmbedding (_ : String) : Except String (Option (List Float64)) :=
  .ok (some (zeroVector 1536))

/-- A completion provider that echoes its prompt. -/
def echoCompletion (prompt : String) : Except String String := .ok prompt

/-- A corpus of one section whose embedding has 3 components. -/
def shortDomain : Domain :=
  { Domain := "example.com"
    Pages := [⟨"/", "# A", [⟨"# A", "\n\ntext1", [⟨0⟩, ⟨0⟩, ⟨0⟩]⟩]⟩] }

/-- Total number of embedding components over a list of sections. -/
def totalComponents (chunks : List Section) : Nat :=
  (chunks.map (fun s => s.Embedding.length)).sum

/-! ## The crawler's dedup key and aggregator (`scrape`, `api/scrape/index.go`) -/

/-- Line 241: `query := chunk.text + chunk.route`, the key handed to the hash set. -/
def dedupKey (chunk : pageChunk) : String := chunk.text ++ chunk.route

/-- Lines 243-246: the check-and-insert on one extracted chunk. Returns the hash set
afterwards and the chunk sent on the stream, if any. -/
def offerChunk (hash_set : ThreadSafeHashSet) (chunk : pageChunk) :
    ThreadSafeHashSet × Option pageChunk :=
  if !hash_set.Has (dedupKey chunk) then (hash_set.Add (dedupKey chunk), some chunk)
  else (hash_set, none)

/-- A route as `URL.Path` gives it: empty or starting with a slash. -/
def isUrlPath (route : String) : Prop :=
  route = "" ∨ route.data.head? = some '/'

/-- A chunk with text `and/or` found on the page `/faq`. -/
def slashTextChunk : pageChunk := ⟨"/faq", "and/or", 3, 7⟩

/-- A chunk with text `and` found on the page `/or/faq`. -/
def slashRouteChunk : pageChunk := ⟨"/or/faq", "and", 0, 7⟩

/-- A heading found on the page `/docs`. -/
def docsHeading : pageChunk := ⟨"/docs", "Install", 0, 1⟩

/-- The same text found again on the page `/docs`, at another position. -/
def docsHeadingAgain : pageChunk := ⟨"/docs", "Install", 5, 1⟩

def MAX_CHUNKS_ARBITRARY : Nat := 4000

/-- Go `map[string][]pageChunk`: `none` means the key is absent. -/
abbrev ChunkMap := String → Option (List pageChunk)

/-- The variables the aggregator goroutine of lines 259-272 works on. -/
structure AggregatorState where
  chunksEncountered : Nat
  chunk_map : ChunkMap
  hasHitLimit : Bool

/-- Lines 208, 254 and 260: the variables before the first chunk is received. -/
def initialAggregatorState : AggregatorState :=
  { chunksEncountered := 0, chunk_map := fun _ => none, hasHitLimit := false }

/-- The value of `chunk_map[route]`: the empty slice for an absent key. -/
def chunksAt (m : ChunkMap) (route : String) : List pageChunk :=
  (m route).getD []

/-- Lines 263-269: what the aggregator does with one chunk received on the stream. -/
def aggregatorStep (st : AggregatorState) (chunk : pageChunk) : AggregatorState :=
  let chunksEncountered := st.chunksEncountered + 1
  if chunksEncountered < MAX_CHUNKS_ARBITRARY then
    { chunksEncountered := chunksEncountered
      chunk_map := Function.update st.chunk_map chunk.route
        (some (chunksAt st.chunk_map chunk.route ++ [chunk]))
      hasHitLimit := st.hasHitLimit }
  else
    { chunksEncountered := chunksEncountered
      chunk_map := st.chunk_map
      hasHitLimit := true }

/-- Lines 261-271: the aggregator run over the chunks received, in arrival order. -/
def aggregate (received : List pageChunk) : AggregatorState :=
  received.foldl aggregatorStep initialAggregatorState

/-- The `i`-th chunk of a long page: a paragraph on the route `/`. -/
def numberedChunk (i : Nat) : pageChunk := ⟨"/", "paragraph", i, 7⟩

/-- A stream of exactly 4000 chunks, all on the route `/`. -/
def fullStream : List pageChunk := (List.range 4000).map numberedChunk

/-! ## Lemmas: the ranked walk -/

theorem foldl_setTrue_apply (l : List Nat) (m : BoolMap) (i : Nat) :
    isSet (l.foldl setTrue m) i = true ↔ i ∈ l ∨ isSet m i = true := by
  induction l generalizing m with
  | nil => simp
  | cons v rest ih =>
    rw [List.foldl_cons, ih]
    by_cases h : i = v
    · subst h; simp [isSet, setTrue]
    · simp [isSet, setTrue, Function.update_noteq h, h]

theorem isSet_emptyMap (i : Nat) : isSet emptyMap i = false := by
  simp [isSet, emptyMap]

theorem cumulativeTokens_nil (chunks : List Section) : cumulativeTokens chunks [] = 0 := rfl

theorem cumulativeTokens_cons (chunks : List Section) (v : Nat) (l : List Nat) :
    cumulativeTokens chunks (v :: l) = sectionTokens chunks v + cumulativeTokens chunks l := by
  simp [cumulativeTokens]

theorem selectLoop_spec (chunks : List Section) :
    ∀ (ranked : List Nat) (t0 : Nat) (m0 : BoolMap),
      (∀ v ∈ ranked, v < chunks.length) →
      ∃ k, k ≤ ranked.length ∧
        selectLoop chunks ranked t0 m0 =
          .ok (t0 + cumulativeTokens chunks (ranked.take k) + stopTokens chunks ranked k,
               (ranked.take k).foldl setTrue m0) ∧
        (∀ i, 1 ≤ i → i ≤ k → t0 + cumulativeTokens chunks (ranked.take i) ≤ MAX_PSEUDO_TOKENS) ∧
        (k < ranked.length →
          MAX_PSEUDO_TOKENS < t0 + cumulativeTokens chunks (ranked.take (k + 1))) := by
  intro ranked
  induction ranked with
  | nil =>
    intro t0 m0 _
    refine ⟨0, Nat.le_refl _, ?_, ?_, ?_⟩
    · simp [selectLoop, cumulativeTokens, stopTokens]
    · intro i h1 h0; omega
    · intro h; simp at h
  | cons v rest ih =>
    intro t0 m0 hlt
    have hv : v < chunks.length := hlt v (List.mem_cons_self _ _)
    have hget : chunks[v]? = some chunks[v] := List.getElem?_eq_getElem hv
    have htok : sectionTokens chunks v = CountPseudoTokens chunks[v].Zip := by
      simp [sectionTokens, hget]
    by_cases hover : t0 + CountPseudoTokens chunks[v].Zip > MAX_PSEUDO_TOKENS
    · refine ⟨0, Nat.zero_le _, ?_, ?_, ?_⟩
      · simp [selectLoop, hget, hover, cumulativeTokens, stopTokens, htok]
      · intro i h1 h0; omega
      · intro _
        rw [List.take_succ_cons, List.take_zero, cumulativeTokens_cons, cumulativeTokens_nil,
          htok]
        omega
    · obtain ⟨k, hk, hrun, hstay, hstop⟩ :=
        ih (t0 + CountPseudoTokens chunks[v].Zip) (setTrue m0 v)
          (fun w hw => hlt w (List.mem_cons_of_mem _ hw))
      refine ⟨k + 1, by simpa using hk, ?_, ?_, ?_⟩
      · simp only [selectLoop, hget, hover, if_false, hrun]
        simp [cumulativeTokens_cons, stopTokens, htok, Nat.add_assoc]
      · intro i h1 hi
        cases i with
        | zero => omega
        | succ j =>
          rw [List.take_succ_cons, cumulativeTokens_cons, htok]
          cases j with
          | zero => rw [List.take_zero, cumulativeTokens_nil]; omega
          | succ j2 =>
            have := hstay (j2 + 1) (by omega) (by omega)
            omega
      · intro hlen
        have := hstop (by simpa using hlen)
        rw [List.take_succ_cons, cumulativeTokens_cons, htok]
        omega

theorem cumulativeTokens_take_mono (chunks : List Section) (ranked : List Nat) {i j : Nat}
    (h : i ≤ j) :
    cumulativeTokens chunks (ranked.take i) ≤ cumulativeTokens chunks (ranked.take j) := by
  induction ranked generalizing i j with
  | nil => simp
  | cons v rest ih =>
    cases i with
    | zero => simp [cumulativeTokens_nil]
    | succ i2 =>
      cases j with
      | zero => omega
      | succ j2 =>
        have := ih (i := i2) (j := j2) (by omega)
        rw [List.take_succ_cons, List.take_succ_cons, cumulativeTokens_cons,
          cumulativeTokens_cons]
        omega

theorem countFrom_append_nonword (b : Bool) (l1 : List Char) (c : Char) (l2 : List Char)
    (hc : isWordChar c = false) :
    countFrom b (l1 ++ c :: l2) = countFrom b l1 + countFrom false l2 := by
  induction l1 generalizing b with
  | nil => simp [countFrom, hc]
  | cons x xs ih =>
    by_cases hx : isWordChar x
    · simp [countFrom, hx, ih, Nat.add_assoc]
    · simp [countFrom, hx, ih]

theorem CountPseudoTokens_wordsText (n : Nat) : CountPseudoTokens (wordsText n) = n := by
  induction n with
  | zero => rfl
  | succ n ih =>
    have h : (wordsText (n + 1)).data = 'w' :: ' ' :: (wordsText n).data := by
      simp [wordsText, String.data_append]
    have hw : isWordChar 'w' = true := by decide
    have hs : isWordChar ' ' = false := by decide
    unfold CountPseudoTokens at ih ⊢
    rw [h]
    simp [countFrom, hw, hs, ih, Nat.add_comm]

/-! ## Claims about the ranked walk -/

/-- C1. Early-stop selection. For every flattened section list, every ranked order of
its indices and every query, the walk of lines 196-205 returns, and the set of included
sections is exactly a prefix `ranked.take k` of the ranked order: the running total
(query count plus cumulative section counts) stays at or below 1500 after each of its
sections, no longer prefix has that property, and no section ranked at or after the
first rejected one is included. -/
theorem selectIndices_early_stop (chunks : List Section) (ranked : List Nat)
    (query : String) (hperm : ranked.Perm (List.range chunks.length)) :
    ∃ k tokens indicesToAdd,
      k ≤ ranked.length ∧
      selectIndices chunks query ranked = .ok (tokens, indicesToAdd) ∧
      (∀ i, isSet indicesToAdd i = true ↔ i ∈ ranked.take k) ∧
      (∀ i, 1 ≤ i → i ≤ k →
        CountPseudoTokens query + cumulativeTokens chunks (ranked.take i) ≤ MAX_PSEUDO_TOKENS) ∧
      (∀ j, j ≤ ranked.length →
        (∀ i, 1 ≤ i → i ≤ j →
          CountPseudoTokens query + cumulativeTokens chunks (ranked.take i)
            ≤ MAX_PSEUDO_TOKENS) →
        j ≤ k) ∧
      (∀ i, i ∈ ranked.drop k → isSet indicesToAdd i = false) := by
  have hlt : ∀ v ∈ ranked, v < chunks.length := fun v hv =>
    List.mem_range.mp (hperm.mem_iff.mp hv)
  have hnodup : ranked.Nodup := hperm.nodup_iff.mpr (List.nodup_range _)
  obtain ⟨k, hk, hrun, hstay, hstop⟩ :=
    selectLoop_spec chunks ranked (CountPseudoTokens query) emptyMap hlt
  have hmem : ∀ i, isSet ((ranked.take k).foldl setTrue emptyMap) i = true ↔
      i ∈ ranked.take k := by
    intro i
    rw [foldl_setTrue_apply]
    simp [isSet_emptyMap]
  refine ⟨k, _, _, hk, hrun, hmem, hstay, ?_, ?_⟩
  · intro j hj hall
    by_contra hjk
    have hklt : k < ranked.length := by omega
    have h1 := hstop hklt
    have h2 := hall (k + 1) (by omega) (by omega)
    omega
  · intro i hi
    cases hset : isSet ((ranked.take k).foldl setTrue emptyMap) i with
    | false => rfl
    | true =>
      exfalso
      have hin : i ∈ ranked.take k := (hmem i).mp hset
      have hd : List.Disjoint (ranked.take k) (ranked.drop k) :=
        List.disjoint_of_nodup_append (by rw [List.take_append_drop]; exact hnodup)
      exact hd hin hi

/-- The budget scenario: sections of 100, 2000 and 50 pseudo-tokens, a query of 10, ranked
order 2000, 100, 50. The first ranked section is rejected and nothing is included. -/
theorem selectIndices_early_stop_witness :
    [1, 0, 2].Perm (List.range scenarioChunks.length) ∧
    (∃ k tokens indicesToAdd,
      k ≤ [1, 0, 2].length ∧
      selectIndices scenarioChunks scenarioQuery [1, 0, 2] = .ok (tokens, indicesToAdd) ∧
      (∀ i, isSet indicesToAdd i = true ↔ i ∈ [1, 0, 2].take k) ∧
      (∀ i, 1 ≤ i → i ≤ k →
        CountPseudoTokens scenarioQuery + cumulativeTokens scenarioChunks ([1, 0, 2].take i)
          ≤ MAX_PSEUDO_TOKENS) ∧
      (∀ j, j ≤ [1, 0, 2].length →
        (∀ i, 1 ≤ i → i ≤ j →
          CountPseudoTokens scenarioQuery + cumulativeTokens scenarioChunks ([1, 0, 2].take i)
            ≤ MAX_PSEUDO_TOKENS) →
        j ≤ k) ∧
      (∀ i, i ∈ [1, 0, 2].drop k → isSet indicesToAdd i = false)) ∧
    selectIndices scenarioChunks scenarioQuery [1, 0, 2] = .ok (2010, emptyMap) :=
  ⟨by decide,
   selectIndices_early_stop scenarioChunks [1, 0, 2] scenarioQuery (by decide),
   by
    simp [selectIndices, selectLoop, scenarioChunks, scenarioQuery, Section.Zip,
      CountPseudoTokens_wordsText, MAX_PSEUDO_TOKENS]⟩

theorem selectedTokens_of_take (chunks : List Section) (ranked : List Nat) (k : Nat)
    (m : BoolMap) (hlt : ∀ v ∈ ranked, v < chunks.length) (hnodup : ranked.Nodup)
    (hm : ∀ i, isSet m i = true ↔ i ∈ ranked.take k) :
    selectedTokens chunks m = cumulativeTokens chunks (ranked.take k) := by
  unfold selectedTokens cumulativeTokens
  apply List.Perm.sum_eq
  apply List.Perm.map
  rw [List.perm_ext_iff_of_nodup ((List.nodup_range _).filter _)
    (hnodup.sublist (List.take_sublist _ _))]
  intro i
  simp only [List.mem_filter, List.mem_range, hm]
  constructor
  · exact fun h => h.2
  · exact fun h => ⟨hlt i (List.mem_of_mem_take h), h⟩

/-- C2 as stated fails: a query of 1502 pseudo-tokens against a corpus of one
one-token section. The walk stops at that section (t = 1) with nothing selected, and
the query count plus the selected sum is 1502, above 1500 + 1. -/
theorem budget_bound_fails_for_long_query :
    [0].Perm (List.range tinyChunks.length) ∧
    selectIndices tinyChunks longQuery [0] = .ok (1503, emptyMap) ∧
    stopTokens tinyChunks [0] 0 = 1 ∧
    ¬ (CountPseudoTokens longQuery + selectedTokens tinyChunks emptyMap
        ≤ MAX_PSEUDO_TOKENS + stopTokens tinyChunks [0] 0) := by
  have hz : ("" : String) ++ wordsText 1 = wordsText 1 := by
    apply String.ext; simp [String.data_append]
  refine ⟨by decide, ?_, ?_, ?_⟩
  · simp [selectIndices, selectLoop, tinyChunks, longQuery, Section.Zip,
      CountPseudoTokens_wordsText, MAX_PSEUDO_TOKENS]
  · simp [stopTokens, sectionTokens, tinyChunks, Section.Zip, hz, CountPseudoTokens_wordsText]
  · simp [stopTokens, sectionTokens, tinyChunks, Section.Zip, hz, CountPseudoTokens_wordsText,
      longQuery, selectedTokens, isSet_emptyMap, MAX_PSEUDO_TOKENS]
    omega

/-- C2, amended. For every flattened section list, every ranked order of its indices
and every query of at most 1500 pseudo-tokens, the walk returns having accepted a
prefix `ranked.take k`; the final counter is the query count plus the selected sum plus
the count `t` of the section at which the walk stopped (`t = 0` when none was
rejected), and the query count plus the selected sum is at most 1500, hence at most
`1500 + t`. -/
theorem selectIndices_budget (chunks : List Section) (ranked : List Nat) (query : String)
    (hperm : ranked.Perm (List.range chunks.length))
    (hq : CountPseudoTokens query ≤ MAX_PSEUDO_TOKENS) :
    ∃ k tokens indicesToAdd,
      k ≤ ranked.length ∧
      selectIndices chunks query ranked = .ok (tokens, indicesToAdd) ∧
      (∀ i, isSet indicesToAdd i = true ↔ i ∈ ranked.take k) ∧
      (k < ranked.length →
        MAX_PSEUDO_TOKENS <
          CountPseudoTokens query + cumulativeTokens chunks (ranked.take (k + 1))) ∧
      tokens = CountPseudoTokens query + selectedTokens chunks indicesToAdd
        + stopTokens chunks ranked k ∧
      CountPseudoTokens query + selectedTokens chunks indicesToAdd ≤ MAX_PSEUDO_TOKENS ∧
      CountPseudoTokens query + selectedTokens chunks indicesToAdd
        ≤ MAX_PSEUDO_TOKENS + stopTokens chunks ranked k := by
  have hlt : ∀ v ∈ ranked, v < chunks.length := fun v hv =>
    List.mem_range.mp (hperm.mem_iff.mp hv)
  have hnodup : ranked.Nodup := hperm.nodup_iff.mpr (List.nodup_range _)
  obtain ⟨k, hk, hrun, hstay, hstop⟩ :=
    selectLoop_spec chunks ranked (CountPseudoTokens query) emptyMap hlt
  have hmem : ∀ i, isSet ((ranked.take k).foldl setTrue emptyMap) i = true ↔
      i ∈ ranked.take k := by
    intro i
    rw [foldl_setTrue_apply]
    simp [isSet_emptyMap]
  have hsel := selectedTokens_of_take chunks ranked k _ hlt hnodup hmem
  have hle : CountPseudoTokens query + cumulativeTokens chunks (ranked.take k)
      ≤ MAX_PSEUDO_TOKENS := by
    cases k with
    | zero => simpa [cumulativeTokens_nil] using hq
    | succ k2 => exact hstay (k2 + 1) (by omega) (Nat.le_refl _)
  refine ⟨k, _, _, hk, hrun, hmem, hstop, ?_, ?_, ?_⟩
  · rw [hsel]
  · rw [hsel]; exact hle
  · rw [hsel]; omega

/-- The budget bound on the scenario of three sections and a query of 10 pseudo-tokens. -/
theorem selectIndices_budget_witness :
    [1, 0, 2].Perm (List.range scenarioChunks.length) ∧
    CountPseudoTokens scenarioQuery ≤ MAX_PSEUDO_TOKENS ∧
    ∃ k tokens indicesToAdd,
      k ≤ [1, 0, 2].length ∧
      selectIndices scenarioChunks scenarioQuery [1, 0, 2] = .ok (tokens, indicesToAdd) ∧
      (∀ i, isSet indicesToAdd i = true ↔ i ∈ [1, 0, 2].take k) ∧
      (k < [1, 0, 2].length →
        MAX_PSEUDO_TOKENS <
          CountPseudoTokens scenarioQuery
            + cumulativeTokens scenarioChunks ([1, 0, 2].take (k + 1))) ∧
      tokens = CountPseudoTokens scenarioQuery + selectedTokens scenarioChunks indicesToAdd
        + stopTokens scenarioChunks [1, 0, 2] k ∧
      CountPseudoTokens scenarioQuery + selectedTokens scenarioChunks indicesToAdd
        ≤ MAX_PSEUDO_TOKENS ∧
      CountPseudoTokens scenarioQuery + selectedTokens scenarioChunks indicesToAdd
        ≤ MAX_PSEUDO_TOKENS + stopTokens scenarioChunks [1, 0, 2] k :=
  have hq : CountPseudoTokens scenarioQuery ≤ MAX_PSEUDO_TOKENS := by
    simp [scenarioQuery, CountPseudoTokens_wordsText, MAX_PSEUDO_TOKENS]
  ⟨by decide, hq,
   selectIndices_budget scenarioChunks [1, 0, 2] scenarioQuery (by decide) hq⟩

/-! ## Claims about the emitted context -/

theorem zipAt_append_length (pre : List Section) (v : Section) (rest : List Section) :
    zipAt (pre ++ v :: rest) pre.length = v.Zip := by
  have h : (pre ++ v :: rest)[pre.length]? = some v := by
    rw [List.getElem?_append_right (Nat.le_refl _)]
    simp
  simp only [zipAt, h]

theorem contextLoop_eq (m : BoolMap) :
    ∀ (l pre : List Section) (prompt : String),
      contextLoop m l pre.length prompt =
        prompt ++ concatStrings
          (((List.range' pre.length l.length).filter (isSet m)).map
            (fun i => "\n\n" ++ zipAt (pre ++ l) i)) := by
  intro l
  induction l with
  | nil =>
    intro pre prompt
    simp [contextLoop, concatStrings]
  | cons v rest ih =>
    intro pre prompt
    have hstep := ih (pre ++ [v])
    simp only [List.length_append, List.length_singleton, List.append_assoc,
      List.singleton_append] at hstep
    simp only [contextLoop, hstep, List.length_cons, List.range'_succ]
    by_cases hsel : isSet m pre.length = true
    · simp [hsel, List.filter_cons, concatStrings, zipAt_append_length, String.append_assoc]
    · simp [hsel, List.filter_cons]

theorem contextLoop_eq_spec (chunks : List Section) (m : BoolMap) :
    contextLoop m chunks 0 "" = contextInOriginalOrder chunks m := by
  have h := contextLoop_eq m chunks [] ""
  simp only [List.length_nil, List.nil_append] at h
  rw [h, contextInOriginalOrder, selectedInOrder, List.range_eq_range']
  apply String.ext
  simp [String.data_append]

theorem selectedInOrder_congr (chunks : List Section) (m m2 : BoolMap)
    (h : ∀ i, i < chunks.length → isSet m2 i = isSet m i) :
    selectedInOrder chunks m2 = selectedInOrder chunks m := by
  unfold selectedInOrder
  apply List.filter_congr
  intro i hi
  exact h i (List.mem_range.mp hi)

/-- C3. Original-order emission. For every flattened section list and every selected
index set, the prompt built by lines 208-220 is the fixed tail preceded by the
concatenation, over the flattened indices in increasing order that belong to the
selected set, of a blank line followed by Title+Content. Two selections with the same
selected set give the same prompt, whatever order they were made in, and the list of
emitted indices is strictly increasing (so each selected section appears exactly once)
and holds exactly the selected indices of the corpus. -/
theorem buildPrompt_original_order (chunks : List Section) (indicesToAdd : BoolMap)
    (query : String) :
    buildPrompt chunks indicesToAdd query =
      contextInOriginalOrder chunks indicesToAdd ++ promptTail query ∧
    (∀ other : BoolMap,
      (∀ i, i < chunks.length → isSet other i = isSet indicesToAdd i) →
      buildPrompt chunks other query = buildPrompt chunks indicesToAdd query) ∧
    (selectedInOrder chunks indicesToAdd).Sorted (· < ·) ∧
    (∀ i, i ∈ selectedInOrder chunks indicesToAdd ↔
      i < chunks.length ∧ isSet indicesToAdd i = true) := by
  refine ⟨?_, ?_, ?_, ?_⟩
  · simp [buildPrompt, contextLoop_eq_spec]
  · intro other h
    simp only [buildPrompt, contextLoop_eq_spec, contextInOriginalOrder,
      selectedInOrder_congr chunks indicesToAdd other h]
  · exact (List.pairwise_lt_range _).sublist (List.filter_sublist _)
  · intro i
    simp [selectedInOrder, List.mem_filter]

/-! ## Lemmas: strings and pseudo-tokens -/

theorem utf8ByteSize_pos_iff (s : String) : 0 < s.utf8ByteSize ↔ s ≠ "" := by
  cases s with
  | mk cs =>
    cases cs with
    | nil => simp [String.utf8ByteSize, String.utf8ByteSize.go]
    | cons c rest =>
      have hc := Char.utf8Size_pos c
      have hne : String.mk (c :: rest) ≠ "" := by
        intro h
        have := congrArg String.data h
        simp at this
      simp only [String.utf8ByteSize, String.utf8ByteSize.go, ne_eq, hne, not_false_eq_true,
        iff_true]
      omega

theorem joinBlank_append_singleton (l : List String) (t : String) :
    joinBlank (l ++ [t]) = joinBlank l ++ ("\n\n" ++ t) := by
  induction l with
  | nil =>
    apply String.ext
    simp [joinBlank, String.data_append]
  | cons x xs ih =>
    show ("\n\n" ++ x) ++ joinBlank (xs ++ [t]) = (("\n\n" ++ x) ++ joinBlank xs) ++ ("\n\n" ++ t)
    rw [ih]
    simp only [String.append_assoc]

theorem countFrom_append_joinBlank (ts : List String) :
    ∀ (b : Bool) (l : List Char),
      countFrom b (l ++ (joinBlank ts).data) =
        countFrom b l + (ts.map CountPseudoTokens).sum := by
  induction ts with
  | nil => intro b l; simp [joinBlank]
  | cons t rest ih =>
    intro b l
    have hd : (joinBlank (t :: rest)).data = '\n' :: ('\n' :: (t.data ++ (joinBlank rest).data)) := by
      simp [joinBlank, String.data_append]
    have hn : isWordChar '\n' = false := by decide
    rw [hd, countFrom_append_nonword b l '\n' _ hn]
    have h2 : countFrom false ('\n' :: (t.data ++ (joinBlank rest).data)) =
        countFrom false (t.data ++ (joinBlank rest).data) := by
      simp [countFrom, hn]
    rw [h2, ih false t.data]
    simp [CountPseudoTokens, Nat.add_assoc]

theorem CountPseudoTokens_append_joinBlank (s : String) (ts : List String) :
    CountPseudoTokens (s ++ joinBlank ts) =
      CountPseudoTokens s + (ts.map CountPseudoTokens).sum := by
  unfold CountPseudoTokens
  rw [String.data_append]
  exact countFrom_append_joinBlank ts false s.data

theorem CountPseudoTokens_joinBlank (ts : List String) :
    CountPseudoTokens (joinBlank ts) = (ts.map CountPseudoTokens).sum := by
  have h := countFrom_append_joinBlank ts false []
  simpa [CountPseudoTokens, countFrom] using h

theorem CountPseudoTokens_content (g : SectionTrace) :
    CountPseudoTokens g.content = CountPseudoTokens g.seedText + chunkTokens g.appended := by
  unfold SectionTrace.content chunkTokens
  rw [CountPseudoTokens_append_joinBlank, List.map_map]
  rfl

/-! ## Lemmas: the fold follows its record -/

theorem set_length_append_singleton {α : Type} (l : List α) (y x : α) :
    (l ++ [y]).set l.length x = l ++ [x] := by
  induction l with
  | nil => rfl
  | cons a l ih => simp [ih]

theorem getElem?_length_append_singleton {α : Type} (l : List α) (y : α) :
    (l ++ [y])[l.length]? = some y := by
  rw [List.getElem?_append_right (Nat.le_refl _)]
  simp

theorem foldStep_stateOf (done : List SectionTrace) (cur : SectionTrace) (v : pageChunk) :
    foldStep (stateOf done cur) v =
      .ok (stateOf (traceStep done cur v).1 (traceStep done cur v).2) := by
  have hget : (List.map SectionTrace.toSection done ++ [cur.toSection])[done.length]? =
      some cur.toSection := by
    simp
  have hempty : ("" : String) ++ joinBlank [] = "" := by rfl
  unfold foldStep traceStep
  by_cases h3 : v.level < 3
  · simp only [h3, if_true, stateOf]
    simp [SectionTrace.toSection, SectionTrace.content, SectionTrace.seedText,
      SectionTrace.counter, SectionTrace.base, chunkTokens, hempty]
  · simp only [h3, if_false]
    by_cases hover : cur.counter > MAX_SECTION_PSEUDO_TOKENS
    · have hover2 : (stateOf done cur).runningTokenCt > MAX_SECTION_PSEUDO_TOKENS := hover
      simp only [hover, hover2, if_true]
      simp only [stateOf, List.map_append, List.map_cons, List.map_nil, Nat.add_sub_cancel, hget]
      simp [SectionTrace.toSection, SectionTrace.content, SectionTrace.seedText,
        SectionTrace.counter, SectionTrace.base, chunkTokens, joinBlank]
    · have hover2 : ¬ (stateOf done cur).runningTokenCt > MAX_SECTION_PSEUDO_TOKENS := hover
      simp only [hover, hover2, if_false]
      simp only [stateOf, List.map_append, List.map_cons, List.map_nil, hget]
      have hset := set_length_append_singleton (List.map SectionTrace.toSection done)
        cur.toSection
        { cur.toSection with Content := cur.toSection.Content ++ ("\n\n" ++ v.text) }
      simp only [List.length_map] at hset
      rw [hset]
      simp [SectionTrace.toSection, SectionTrace.content, SectionTrace.seedText,
        SectionTrace.counter, SectionTrace.base, chunkTokens, joinBlank_append_singleton,
        String.append_assoc, Nat.add_assoc]

theorem foldChunks_stateOf (vs : List pageChunk) :
    ∀ (done : List SectionTrace) (cur : SectionTrace),
      foldChunks (stateOf done cur) vs =
        .ok (stateOf (traceFold done cur vs).1 (traceFold done cur vs).2) := by
  induction vs with
  | nil => intro done cur; rfl
  | cons v rest ih =>
    intro done cur
    simp only [foldChunks, foldStep_stateOf, traceFold, ih]

theorem initialFoldState_eq : initialFoldState = stateOf [] sentinelTrace := by rfl

theorem traceFold_invariant (Inv : List SectionTrace → SectionTrace → Prop)
    (good : pageChunk → Prop)
    (hstep : ∀ done cur v, good v → Inv done cur →
      Inv (traceStep done cur v).1 (traceStep done cur v).2) :
    ∀ (vs : List pageChunk) (done : List SectionTrace) (cur : SectionTrace),
      (∀ v ∈ vs, good v) → Inv done cur →
      Inv (traceFold done cur vs).1 (traceFold done cur vs).2 := by
  intro vs
  induction vs with
  | nil => intro done cur _ h; exact h
  | cons v rest ih =>
    intro done cur hgood h
    exact ih _ _ (fun w hw => hgood w (List.mem_cons_of_mem _ hw))
      (hstep done cur v (hgood v (List.mem_cons_self _ _)) h)

theorem traceStep_chunks (done : List SectionTrace) (cur : SectionTrace) (v : pageChunk) :
    ((traceStep done cur v).1 ++ [(traceStep done cur v).2]).flatMap SectionTrace.chunks =
      (done ++ [cur]).flatMap SectionTrace.chunks ++ [v] := by
  unfold traceStep
  by_cases h3 : v.level < 3
  · simp [h3, List.flatMap_append, SectionTrace.chunks, SectionTrace.body]
  · by_cases hover : cur.counter > MAX_SECTION_PSEUDO_TOKENS
    · simp [h3, hover, List.flatMap_append, SectionTrace.chunks, SectionTrace.body]
    · simp [h3, hover, List.flatMap_append, SectionTrace.chunks, SectionTrace.body]

theorem traceFold_chunks (vs : List pageChunk) :
    ∀ (done : List SectionTrace) (cur : SectionTrace),
      ((traceFold done cur vs).1 ++ [(traceFold done cur vs).2]).flatMap SectionTrace.chunks =
        (done ++ [cur]).flatMap SectionTrace.chunks ++ vs := by
  induction vs with
  | nil => intro done cur; simp [traceFold]
  | cons v rest ih =>
    intro done cur
    simp only [traceFold, ih, traceStep_chunks, List.append_assoc, List.singleton_append]

theorem traceOf_chunks (prepared : List pageChunk) :
    (traceOf prepared).flatMap SectionTrace.chunks = prepared := by
  unfold traceOf
  rw [traceFold_chunks]
  simp [sentinelTrace, SectionTrace.chunks, SectionTrace.body]

theorem traceStep_soft (done : List SectionTrace) (cur : SectionTrace) (v : pageChunk)
    (h : ∀ g ∈ done ++ [cur], g.soft) :
    ∀ g ∈ (traceStep done cur v).1 ++ [(traceStep done cur v).2], g.soft := by
  have hnew : ∀ (t : String) (hd sd : Option pageChunk),
      (SectionTrace.mk t hd sd []).soft := by
    intro t hd sd init last hl
    simp at hl
  unfold traceStep
  by_cases h3 : v.level < 3
  · simp only [h3, if_true]
    intro g hg
    rcases List.mem_append.mp hg with hg | hg
    · exact h g hg
    · rw [List.mem_singleton.mp hg]; exact hnew _ _ _
  · by_cases hover : cur.counter > MAX_SECTION_PSEUDO_TOKENS
    · simp only [h3, hover, if_true, if_false]
      intro g hg
      rcases List.mem_append.mp hg with hg | hg
      · exact h g hg
      · rw [List.mem_singleton.mp hg]; exact hnew _ _ _
    · simp only [h3, hover, if_false]
      intro g hg
      rcases List.mem_append.mp hg with hg | hg
      · exact h g (List.mem_append_left _ hg)
      · rw [List.mem_singleton.mp hg]
        intro init last hl
        have hinit : init = cur.appended := by
          have := List.append_inj_left' hl (by simp)
          exact this.symm
        subst hinit
        have : cur.counter ≤ MAX_SECTION_PSEUDO_TOKENS := Nat.le_of_not_gt hover
        simpa [SectionTrace.counter, SectionTrace.base] using this

theorem traceOf_soft (prepared : List pageChunk) : ∀ g ∈ traceOf prepared, g.soft := by
  unfold traceOf
  apply traceFold_invariant (fun done cur => ∀ g ∈ done ++ [cur], g.soft) (fun _ => True)
  · intro done cur v _ h
    exact traceStep_soft done cur v h
  · intro v _; trivial
  · intro g hg
    simp at hg
    subst hg
    intro init last hl
    simp [sentinelTrace] at hl

theorem traceStep_opened (done : List SectionTrace) (cur : SectionTrace) (v : pageChunk)
    (h : ∀ g ∈ (done ++ [cur]).tail, g.opened) :
    ∀ g ∈ ((traceStep done cur v).1 ++ [(traceStep done cur v).2]).tail, g.opened := by
  have hne : done ++ [cur] ≠ [] := by simp
  unfold traceStep
  by_cases h3 : v.level < 3
  · simp only [h3, if_true]
    intro g hg
    rw [List.tail_append_of_ne_nil hne] at hg
    rcases List.mem_append.mp hg with hg | hg
    · exact h g hg
    · rw [List.mem_singleton.mp hg]
      exact Or.inl ⟨v, rfl, rfl, rfl⟩
  · by_cases hover : cur.counter > MAX_SECTION_PSEUDO_TOKENS
    · simp only [h3, hover, if_true, if_false]
      intro g hg
      rw [List.tail_append_of_ne_nil hne] at hg
      rcases List.mem_append.mp hg with hg | hg
      · exact h g hg
      · rw [List.mem_singleton.mp hg]
        exact Or.inr ⟨rfl, v, rfl⟩
    · simp only [h3, hover, if_false]
      intro g hg
      cases done with
      | nil => simp at hg
      | cons d ds =>
        simp only [List.cons_append, List.tail_cons] at hg h
        rcases List.mem_append.mp hg with hg | hg
        · exact h g (List.mem_append_left _ hg)
        · rw [List.mem_singleton.mp hg]
          have hc := h cur (List.mem_append_right _ (List.mem_singleton_self _))
          exact hc

theorem traceOf_opened (prepared : List pageChunk) :
    ∀ g ∈ (traceOf prepared).tail, g.opened := by
  unfold traceOf
  apply traceFold_invariant (fun done cur => ∀ g ∈ (done ++ [cur]).tail, g.opened)
    (fun _ => True)
  · intro done cur v _ h
    exact traceStep_opened done cur v h
  · intro v _; trivial
  · intro g hg
    simp at hg

theorem foldChunks_initial (prepared : List pageChunk) :
    foldChunks initialFoldState prepared =
      .ok (stateOf (traceFold [] sentinelTrace prepared).1
        (traceFold [] sentinelTrace prepared).2) := by
  rw [initialFoldState_eq, foldChunks_stateOf]

theorem foldSections_of_prepared (a prepared : List pageChunk)
    (h : prepareChunks a = .ok prepared) :
    foldSections a = .ok ((traceOf prepared).map SectionTrace.toSection) := by
  simp only [foldSections, h, foldChunks_initial]
  rfl

/-! ## Lemmas: the prepared chunks -/

theorem appendLeader_ok {v x : pageChunk} (h : appendLeader v = .ok x) :
    x.index = v.index ∧ x.level = v.level ∧ x.route = v.route ∧ (v.text ≠ "" → x.text ≠ "") := by
  unfold appendLeader stringsRepeat at h
  by_cases h7 : v.level < 7
  · by_cases hneg : v.level < 0
    · simp [h7, hneg] at h
    · simp only [h7, hneg, if_true, if_false] at h
      injection h with h
      subst h
      refine ⟨rfl, rfl, rfl, ?_⟩
      intro hne hcontra
      have hd := congrArg String.data hcontra
      simp [String.data_append] at hd
  · simp only [h7, if_false] at h
    injection h with h
    subst h
    exact ⟨rfl, rfl, rfl, fun hne => hne⟩

theorem appendLeader_error {v : pageChunk} {e : String} (h : appendLeader v = .error e) :
    v.level < 0 := by
  unfold appendLeader stringsRepeat at h
  by_cases h7 : v.level < 7
  · by_cases hneg : v.level < 0
    · exact hneg
    · simp [h7, hneg] at h
  · simp [h7] at h

theorem appendLeaders_ok : ∀ (l ws : List pageChunk), appendLeaders l = .ok ws →
    List.Forall₂ (fun v x => appendLeader v = .ok x) l ws := by
  intro l
  induction l with
  | nil =>
    intro ws h
    simp only [appendLeaders] at h
    injection h with h
    subst h
    exact List.Forall₂.nil
  | cons v rest ih =>
    intro ws h
    simp only [appendLeaders] at h
    cases hv : appendLeader v with
    | error e => simp [hv] at h
    | ok w =>
      cases hr : appendLeaders rest with
      | error e => simp [hv, hr] at h
      | ok ws2 =>
        simp only [hv, hr] at h
        injection h with h
        subst h
        exact List.Forall₂.cons hv (ih ws2 hr)

theorem appendLeaders_error : ∀ (l : List pageChunk) (e : String),
    appendLeaders l = .error e → ∃ v ∈ l, v.level < 0 := by
  intro l
  induction l with
  | nil => intro e h; simp [appendLeaders] at h
  | cons v rest ih =>
    intro e h
    simp only [appendLeaders] at h
    cases hv : appendLeader v with
    | error e2 => exact ⟨v, List.mem_cons_self _ _, appendLeader_error hv⟩
    | ok w =>
      cases hr : appendLeaders rest with
      | error e2 =>
        obtain ⟨u, hu, hlt⟩ := ih e2 hr
        exact ⟨u, List.mem_cons_of_mem _ hu, hlt⟩
      | ok ws2 => simp [hv, hr] at h

theorem mem_filterEmptyChunks_sort {a : List pageChunk} {v : pageChunk}
    (h : v ∈ filterEmptyChunks (sortByIndex a)) : v ∈ a ∧ v.text ≠ "" := by
  unfold filterEmptyChunks sortByIndex at h
  rw [List.mem_filter] at h
  refine ⟨(List.perm_insertionSort _ a).mem_iff.mp h.1, ?_⟩
  have := h.2
  simp only [decide_eq_true_eq] at this
  exact (utf8ByteSize_pos_iff _).mp this

theorem prepareChunks_error {a : List pageChunk} {e : String}
    (h : prepareChunks a = .error e) : ∃ v ∈ a, v.level < 0 := by
  obtain ⟨v, hv, hlt⟩ := appendLeaders_error _ e h
  exact ⟨v, (mem_filterEmptyChunks_sort hv).1, hlt⟩

theorem forall₂_mem_right {α β : Type} {R : α → β → Prop} {l : List α} {ws : List β}
    (h : List.Forall₂ R l ws) : ∀ x ∈ ws, ∃ v ∈ l, R v x := by
  induction h with
  | nil => intro x hx; simp at hx
  | cons hr _ ih =>
    intro x hx
    rcases List.mem_cons.mp hx with hx | hx
    · subst hx; exact ⟨_, List.mem_cons_self _ _, hr⟩
    · obtain ⟨v, hv, hR⟩ := ih x hx
      exact ⟨v, List.mem_cons_of_mem _ hv, hR⟩

theorem prepareChunks_mem {a prepared : List pageChunk} (h : prepareChunks a = .ok prepared) :
    ∀ x ∈ prepared, x.text ≠ "" ∧ ∃ v ∈ a, appendLeader v = .ok x := by
  intro x hx
  obtain ⟨v, hv, hR⟩ := forall₂_mem_right (appendLeaders_ok _ _ h) x hx
  have hm := mem_filterEmptyChunks_sort hv
  exact ⟨(appendLeader_ok hR).2.2.2 hm.2, v, hm.1, hR⟩

theorem processPage_error {a : List pageChunk} {e : String} (h : processPage a = .error e) :
    ∃ v ∈ a, v.level < 0 := by
  cases hp : prepareChunks a with
  | error e2 => exact prepareChunks_error hp
  | ok prepared =>
    simp [processPage, foldSections_of_prepared a prepared hp] at h

theorem processPage_of_prepared {a prepared : List pageChunk}
    (h : prepareChunks a = .ok prepared) :
    processPage a = .ok (finishPage ((traceOf prepared).map SectionTrace.toSection)) := by
  simp [processPage, foldSections_of_prepared a prepared h]

theorem finishPage_sections (built : List Section) :
    (finishPage built).Sections =
      (built.drop 1).filter (fun s => decide (s.Content ≠ "")) := by
  unfold finishPage filterEmptySections
  apply List.filter_congr
  intro s _
  simp only [gt_iff_lt, utf8ByteSize_pos_iff]

theorem SectionTrace.content_ne_empty_of_body {g : SectionTrace}
    (hseed : ∀ c, g.seed = some c → c.text ≠ "") (hbody : g.body ≠ []) :
    g.content ≠ "" := by
  intro hc
  have hd := congrArg String.data hc
  unfold SectionTrace.content SectionTrace.seedText at hd
  cases hs : g.seed with
  | some c =>
    have hne := hseed c hs
    simp only [hs, String.data_append] at hd
    have : c.text.data = [] := by
      have := List.append_eq_nil.mp hd
      exact this.1
    apply hne
    apply String.ext
    simpa using this
  | none =>
    have happ : g.appended ≠ [] := by
      simpa [SectionTrace.body, hs] using hbody
    cases hl : g.appended with
    | nil => exact happ hl
    | cons x xs =>
      simp [hs, hl, joinBlank, String.data_append] at hd

theorem mem_traceOf_chunks {prepared : List pageChunk} {g : SectionTrace} {c : pageChunk}
    (hg : g ∈ traceOf prepared) (hc : c ∈ g.chunks) : c ∈ prepared := by
  have h := traceOf_chunks prepared
  rw [← h, List.mem_flatMap]
  exact ⟨g, hg, hc⟩

/-! ## Claims about `processPage` -/

/-- C7 as stated fails: on a page that starts with a paragraph, the fold gives the
sentinel the content of that paragraph, and `processPage` still drops it: the returned
sections are not the fold's sections restricted to non-empty content. -/
theorem sentinel_with_content_is_dropped :
    foldSections leadingParagraphPage =
      .ok [⟨"", "\n\nintro", []⟩, ⟨"# A", "\n\ntext", []⟩] ∧
    processPage leadingParagraphPage = .ok ⟨"", "# A", [⟨"# A", "\n\ntext", []⟩]⟩ ∧
    filterEmptySections [⟨"", "\n\nintro", []⟩, ⟨"# A", "\n\ntext", []⟩] ≠
      [⟨"# A", "\n\ntext", []⟩] := by
  refine ⟨by rfl, by rfl, by decide⟩

/-- C7, amended. `processPage` panics only on a chunk of negative level. Otherwise the
returned sections are exactly the sections built by the fold after the sentinel, in
order, restricted to those whose content is non-empty: such a section is returned if
and only if its content is non-empty, every returned section has non-empty content,
and every section after the sentinel that received a body chunk is returned. The
sentinel itself is always dropped. -/
theorem processPage_keeps_nonempty_after_sentinel (a : List pageChunk) :
    match processPage a with
    | .error _ => ∃ v ∈ a, v.level < 0
    | .ok p =>
      ∃ prepared built,
        prepareChunks a = .ok prepared ∧
        foldSections a = .ok built ∧
        built = (traceOf prepared).map SectionTrace.toSection ∧
        (traceOf prepared).flatMap SectionTrace.chunks = prepared ∧
        p.Sections = (built.drop 1).filter (fun s => decide (s.Content ≠ "")) ∧
        (∀ s ∈ built.drop 1, s ∈ p.Sections ↔ s.Content ≠ "") ∧
        (∀ s ∈ p.Sections, s.Content ≠ "") ∧
        (∀ g ∈ (traceOf prepared).drop 1, g.body ≠ [] → g.toSection ∈ p.Sections) := by
  cases hp : prepareChunks a with
  | error e =>
    have herr : processPage a = .error e := by
      simp [processPage, foldSections, hp]
    rw [herr]
    exact prepareChunks_error hp
  | ok prepared =>
    rw [processPage_of_prepared hp]
    have hsec := finishPage_sections ((traceOf prepared).map SectionTrace.toSection)
    refine ⟨prepared, _, rfl, foldSections_of_prepared a prepared hp, rfl,
      traceOf_chunks prepared, hsec, ?_, ?_, ?_⟩
    · intro s hs
      rw [hsec, List.mem_filter]
      constructor
      · intro h
        simpa using h.2
      · intro h
        exact ⟨hs, by simpa using h⟩
    · intro s hs
      rw [hsec, List.mem_filter] at hs
      simpa using hs.2
    · intro g hg hbody
      rw [hsec, List.mem_filter]
      have hgT : g ∈ traceOf prepared := List.mem_of_mem_drop hg
      have hne : g.content ≠ "" := by
        apply SectionTrace.content_ne_empty_of_body _ hbody
        intro c hc
        have hmem : c ∈ g.chunks := by
          simp [SectionTrace.chunks, SectionTrace.body, hc]
        exact (prepareChunks_mem hp c (mem_traceOf_chunks hgT hmem)).1
      refine ⟨?_, by simpa [SectionTrace.toSection] using hne⟩
      rw [← List.map_drop]
      exact List.mem_map_of_mem _ hg

theorem empty_append (s : String) : ("" : String) ++ s = s := by
  apply String.ext
  simp [String.data_append]

theorem sublist_flatMap_of_mem {α β : Type} (f : α → List β) :
    ∀ (l : List α) (x : α), x ∈ l → (f x).Sublist (l.flatMap f) := by
  intro l
  induction l with
  | nil => intro x hx; simp at hx
  | cons y ys ih =>
    intro x hx
    rw [List.flatMap_cons]
    rcases List.mem_cons.mp hx with hx | hx
    · subst hx; exact List.sublist_append_left _ _
    · exact (ih x hx).trans (List.sublist_append_right _ _)

theorem flatMap_sublist_of_sublist {α β : Type} (f : α → List β) {l1 l2 : List α}
    (h : l1.Sublist l2) : (l1.flatMap f).Sublist (l2.flatMap f) := by
  induction h with
  | slnil => exact List.Sublist.refl _
  | cons y _ ih =>
    rw [List.flatMap_cons]
    exact ih.trans (List.sublist_append_right _ _)
  | cons₂ y _ ih =>
    rw [List.flatMap_cons, List.flatMap_cons]
    exact List.Sublist.append (List.Sublist.refl _) ih

theorem chunkTokens_append_singleton (cs : List pageChunk) (c : pageChunk) :
    chunkTokens (cs ++ [c]) = chunkTokens cs + CountPseudoTokens c.text := by
  simp [chunkTokens]

theorem processPage_sections_of_prepared (prepared : List pageChunk) :
    (finishPage ((traceOf prepared).map SectionTrace.toSection)).Sections =
      (((traceOf prepared).drop 1).filter (fun g => decide (g.content ≠ ""))).map
        SectionTrace.toSection := by
  rw [finishPage_sections, ← List.map_drop, List.filter_map]
  rfl

/-- C5. Soft section ceiling. `processPage` panics only on a chunk of negative level.
Otherwise every returned section has a content made of whole prepared chunk texts
`cs ++ [c]` (a sublist of the prepared chunks, none truncated), `c` being the last chunk
added to it; the content before `c` was added counts at most 600 pseudo-tokens, and the
content counts at most 600 plus the count of `c`. -/
theorem processPage_soft_ceiling (a : List pageChunk) :
    match processPage a with
    | .error _ => ∃ v ∈ a, v.level < 0
    | .ok p =>
      ∃ prepared, prepareChunks a = .ok prepared ∧
        ∀ s ∈ p.Sections, ∃ (seeded : Bool) (cs : List pageChunk) (c : pageChunk),
          (cs ++ [c]).Sublist prepared ∧
          s.Content = renderBody seeded ((cs ++ [c]).map (fun x => x.text)) ∧
          CountPseudoTokens (renderBody seeded (cs.map (fun x => x.text)))
            ≤ MAX_SECTION_PSEUDO_TOKENS ∧
          CountPseudoTokens s.Content =
            CountPseudoTokens (renderBody seeded (cs.map (fun x => x.text)))
              + CountPseudoTokens c.text ∧
          CountPseudoTokens s.Content
            ≤ MAX_SECTION_PSEUDO_TOKENS + CountPseudoTokens c.text := by
  cases hp : prepareChunks a with
  | error e =>
    have herr : processPage a = .error e := by
      simp [processPage, foldSections, hp]
    rw [herr]
    exact prepareChunks_error hp
  | ok prepared =>
    rw [processPage_of_prepared hp]
    refine ⟨prepared, rfl, ?_⟩
    intro s hs
    rw [processPage_sections_of_prepared prepared, List.mem_map] at hs
    obtain ⟨g, hg, rfl⟩ := hs
    rw [List.mem_filter] at hg
    obtain ⟨hgd, hne⟩ := hg
    have hne : g.content ≠ "" := by simpa using hne
    have hgT : g ∈ traceOf prepared := List.mem_of_mem_drop hgd
    have hsoft := traceOf_soft prepared g hgT
    have hopen := traceOf_opened prepared g (by simpa using hgd)
    have hsub : g.chunks.Sublist prepared := by
      have := sublist_flatMap_of_mem SectionTrace.chunks (traceOf prepared) g hgT
      rwa [traceOf_chunks] at this
    have hbody : g.body.Sublist prepared :=
      (List.sublist_append_right _ _).trans hsub
    have hcontent : g.toSection.Content = g.seedText ++
        joinBlank (g.appended.map (fun x => x.text)) := rfl
    rcases hopen with ⟨h, hh, hseed, htitle⟩ | ⟨hh, c0, hseed⟩
    · -- opened by a heading
      have hst : g.seedText = "" := by simp [SectionTrace.seedText, hseed]
      have happ : g.appended ≠ [] := by
        intro hnil
        apply hne
        simp [SectionTrace.content, hst, hnil, joinBlank]
      obtain ⟨init, last, hl⟩ : ∃ init last, g.appended = init ++ [last] :=
        ⟨g.appended.dropLast, g.appended.getLast happ,
          (List.dropLast_append_getLast happ).symm⟩
      have hs1 := hsoft init last hl
      refine ⟨false, init, last, ?_, ?_, ?_, ?_, ?_⟩
      · rw [← hl]
        simpa [SectionTrace.body, hseed] using hbody
      · rw [hcontent, hst, hl, empty_append]; rfl
      · simp only [renderBody, Bool.false_eq_true, if_false]
        rw [CountPseudoTokens_joinBlank, List.map_map]
        have : chunkTokens init ≤ MAX_SECTION_PSEUDO_TOKENS := by omega
        exact this
      · rw [hcontent, hst, hl, empty_append]
        simp only [renderBody, Bool.false_eq_true, if_false]
        rw [CountPseudoTokens_joinBlank, CountPseudoTokens_joinBlank, List.map_map,
          List.map_map]
        exact chunkTokens_append_singleton init last
      · rw [hcontent, hst, hl, empty_append, CountPseudoTokens_joinBlank, List.map_map]
        have := chunkTokens_append_singleton init last
        unfold chunkTokens at this hs1
        simp only [Function.comp_def] at this ⊢
        omega
    · -- a continuation
      have hst : g.seedText = c0.text := by simp [SectionTrace.seedText, hseed]
      have hbase : g.base = CountPseudoTokens c0.text := by simp [SectionTrace.base, hseed]
      have hbody2 : (c0 :: g.appended).Sublist prepared := by
        simpa [SectionTrace.body, hseed] using hbody
      by_cases happ : g.appended = []
      · refine ⟨true, [], c0, ?_, ?_, ?_, ?_, ?_⟩
        · simpa [happ] using hbody2
        · rw [hcontent, hst, happ]; rfl
        · simp [renderBody, joinSeeded, CountPseudoTokens, countFrom]
        · rw [hcontent, hst, happ, CountPseudoTokens_append_joinBlank]
          simp [renderBody, joinSeeded, CountPseudoTokens, countFrom]
        · rw [hcontent, hst, happ, CountPseudoTokens_append_joinBlank]
          simp
      · obtain ⟨init, last, hl⟩ : ∃ init last, g.appended = init ++ [last] :=
          ⟨g.appended.dropLast, g.appended.getLast happ,
            (List.dropLast_append_getLast happ).symm⟩
        have hs1 := hsoft init last hl
        rw [hbase] at hs1
        have hbefore : CountPseudoTokens
            (renderBody true ((c0 :: init).map (fun x => x.text))) =
            CountPseudoTokens c0.text + chunkTokens init := by
          simp only [renderBody, if_true, List.map_cons, joinSeeded]
          rw [CountPseudoTokens_append_joinBlank, List.map_map]
          rfl
        have hall : CountPseudoTokens g.toSection.Content =
            CountPseudoTokens c0.text + chunkTokens init + CountPseudoTokens last.text := by
          rw [hcontent, hst, hl, CountPseudoTokens_append_joinBlank, List.map_map]
          have := chunkTokens_append_singleton init last
          unfold chunkTokens at this ⊢
          simp only [Function.comp_def] at this ⊢
          omega
        refine ⟨true, c0 :: init, last, ?_, ?_, ?_, ?_, ?_⟩
        · simpa [hl] using hbody2
        · rw [hcontent, hst, hl]; rfl
        · rw [hbefore]; exact hs1
        · rw [hbefore, hall]
        · rw [hall]; omega

theorem sortByIndex_strict (a : List pageChunk)
    (hidx : (a.map (fun c => c.index)).Nodup) :
    (sortByIndex a).Pairwise (fun x y => x.index < y.index) := by
  have hsorted : (sortByIndex a).Pairwise (fun x y => x.index ≤ y.index) :=
    List.sorted_insertionSort (fun x y : pageChunk => x.index ≤ y.index) a
  have hperm : (sortByIndex a).Perm a := List.perm_insertionSort _ a
  have hnodup : ((sortByIndex a).map (fun c => c.index)).Nodup :=
    (hperm.map _).nodup_iff.mpr hidx
  have hne : (sortByIndex a).Pairwise (fun x y => x.index ≠ y.index) := by
    have := hnodup
    unfold List.Nodup at this
    exact List.pairwise_map.mp this
  exact (hsorted.and hne).imp (fun h => lt_of_le_of_ne h.1 h.2)

theorem forall₂_pairwise_index {l ws : List pageChunk}
    (h : List.Forall₂ (fun v x => appendLeader v = .ok x) l ws)
    (hp : l.Pairwise (fun x y => x.index < y.index)) :
    ws.Pairwise (fun x y => x.index < y.index) := by
  induction h with
  | nil => exact List.Pairwise.nil
  | @cons v x l2 ws2 hr hrest ih =>
    rw [List.pairwise_cons] at hp ⊢
    refine ⟨?_, ih hp.2⟩
    intro y hy
    obtain ⟨u, hu, hR⟩ := forall₂_mem_right hrest y hy
    rw [(appendLeader_ok hr).1, (appendLeader_ok hR).1]
    exact hp.1 u hu

theorem prepareChunks_strict {a prepared : List pageChunk}
    (h : prepareChunks a = .ok prepared) (hidx : (a.map (fun c => c.index)).Nodup) :
    prepared.Pairwise (fun x y => x.index < y.index) := by
  apply forall₂_pairwise_index (appendLeaders_ok _ _ h)
  exact (sortByIndex_strict a hidx).sublist (List.filter_sublist _)

theorem renderedFrom_of_opened (g : SectionTrace) (hopen : g.opened) :
    renderedFrom g.toSection (g.heading, g.body) := by
  rcases hopen with ⟨h, hh, hseed, htitle⟩ | ⟨hh, c0, hseed⟩
  · simp only [renderedFrom, hh]
    refine ⟨htitle, ?_⟩
    simp [SectionTrace.toSection, SectionTrace.content, SectionTrace.seedText,
      SectionTrace.body, hseed, renderBody, empty_append]
  · simp only [renderedFrom, hh]
    refine ⟨by simp [SectionTrace.body, hseed], ?_⟩
    simp [SectionTrace.toSection, SectionTrace.content, SectionTrace.seedText,
      SectionTrace.body, hseed, renderBody, joinSeeded]

theorem forall₂_renderedFrom : ∀ (gs : List SectionTrace), (∀ g ∈ gs, g.opened) →
    List.Forall₂ renderedFrom (gs.map SectionTrace.toSection)
      (gs.map (fun g => (g.heading, g.body))) := by
  intro gs
  induction gs with
  | nil => intro _; exact List.Forall₂.nil
  | cons g rest ih =>
    intro h
    exact List.Forall₂.cons (renderedFrom_of_opened g (h g (List.mem_cons_self _ _)))
      (ih (fun x hx => h x (List.mem_cons_of_mem _ hx)))

theorem readingOrder_map (gs : List SectionTrace) :
    readingOrder (gs.map (fun g => (g.heading, g.body))) = gs.flatMap SectionTrace.chunks := by
  induction gs with
  | nil => rfl
  | cons g rest ih =>
    simp only [readingOrder, List.map_cons, List.flatMap_cons] at ih ⊢
    rw [ih]
    rfl

/-- C6. Document order is preserved. For every chunk list with pairwise distinct
sequence indices, `processPage` panics only on a chunk of negative level; otherwise its
sections, in order, are rendered from a heading chunk (if any) and body chunks such
that reading them section by section (heading, then body in joining order) gives a
sublist of the prepared chunks, each the prefixed form of an input chunk, in strictly
increasing `index` order: nothing is reordered or duplicated. -/
theorem processPage_preserves_order (a : List pageChunk)
    (hidx : (a.map (fun c => c.index)).Nodup) :
    match processPage a with
    | .error _ => ∃ v ∈ a, v.level < 0
    | .ok p =>
      ∃ (prepared : List pageChunk) (reading : List (Option pageChunk × List pageChunk)),
        prepareChunks a = .ok prepared ∧
        List.Forall₂ renderedFrom p.Sections reading ∧
        (readingOrder reading).Sublist prepared ∧
        (∀ x ∈ readingOrder reading, ∃ v ∈ a, appendLeader v = .ok x ∧ x.index = v.index) ∧
        (readingOrder reading).Pairwise (fun x y => x.index < y.index) := by
  cases hp : prepareChunks a with
  | error e =>
    have herr : processPage a = .error e := by
      simp [processPage, foldSections, hp]
    rw [herr]
    exact prepareChunks_error hp
  | ok prepared =>
    rw [processPage_of_prepared hp]
    have hkept : (((traceOf prepared).drop 1).filter
        (fun g => decide (g.content ≠ ""))).Sublist (traceOf prepared) :=
      (List.filter_sublist _).trans (List.drop_sublist _ _)
    have hsub : (readingOrder ((((traceOf prepared).drop 1).filter
        (fun g => decide (g.content ≠ ""))).map (fun g => (g.heading, g.body)))).Sublist
        prepared := by
      rw [readingOrder_map]
      have := flatMap_sublist_of_sublist SectionTrace.chunks hkept
      rwa [traceOf_chunks] at this
    refine ⟨prepared, _, rfl, ?_, hsub, ?_, ?_⟩
    · rw [processPage_sections_of_prepared prepared]
      apply forall₂_renderedFrom
      intro g hg
      have hgd : g ∈ (traceOf prepared).drop 1 := (List.mem_filter.mp hg).1
      exact traceOf_opened prepared g (by simpa using hgd)
    · intro x hx
      obtain ⟨_, v, hv, hR⟩ := prepareChunks_mem hp x (hsub.subset hx)
      exact ⟨v, hv, hR, (appendLeader_ok hR).1⟩
    · exact (prepareChunks_strict hp hidx).sublist hsub

/-- Document order on the page of two headings and two paragraphs. -/
theorem processPage_preserves_order_witness :
    (twoSectionPage.map (fun c => c.index)).Nodup ∧
    match processPage twoSectionPage with
    | .error _ => ∃ v ∈ twoSectionPage, v.level < 0
    | .ok p =>
      ∃ (prepared : List pageChunk) (reading : List (Option pageChunk × List pageChunk)),
        prepareChunks twoSectionPage = .ok prepared ∧
        List.Forall₂ renderedFrom p.Sections reading ∧
        (readingOrder reading).Sublist prepared ∧
        (∀ x ∈ readingOrder reading,
          ∃ v ∈ twoSectionPage, appendLeader v = .ok x ∧ x.index = v.index) ∧
        (readingOrder reading).Pairwise (fun x y => x.index < y.index) :=
  ⟨by decide, processPage_preserves_order twoSectionPage (by decide)⟩

theorem CountPseudoTokens_leader (level : Int) (text : String) :
    CountPseudoTokens (leaderOf level ++ text) = CountPseudoTokens text := by
  have hh : isWordChar '#' = false := by decide
  have hs : isWordChar ' ' = false := by decide
  unfold leaderOf
  by_cases h : level = 1
  · have hd : (("# " : String) ++ text).data = '#' :: ' ' :: text.data := by
      simp [String.data_append]
    simp [h, CountPseudoTokens, hd, countFrom, hh, hs]
  · have hd : (("## " : String) ++ text).data = '#' :: '#' :: ' ' :: text.data := by
      simp [String.data_append]
    simp [h, CountPseudoTokens, hd, countFrom, hh, hs]

theorem blank_append_ne_empty (t : String) : ("\n\n" : String) ++ t ≠ "" := by
  intro h
  have hd := congrArg String.data h
  simp [String.data_append] at hd

theorem appendLeader_heading (r text : String) (i level : Int)
    (hl : level = 1 ∨ level = 2) :
    appendLeader ⟨r, text, i, level⟩ = .ok ⟨r, leaderOf level ++ text, i, level⟩ := by
  rcases hl with hl | hl <;> subst hl <;> rfl

theorem appendLeader_body (r text : String) (i : Int) :
    appendLeader ⟨r, text, i, 7⟩ = .ok ⟨r, text, i, 7⟩ := by
  rfl

/-- C4 as stated fails: on `<h1>A</h1><p>text1</p><h2>B</h2><p>text2</p>` the two
sections carry the heading markers in their titles and a leading blank line in their
contents; they are not titled "A" and "B" with contents "text1" and "text2". -/
theorem two_section_page_keeps_markers :
    processPage twoSectionPage =
      .ok ⟨"", "# A", [⟨"# A", "\n\ntext1", []⟩, ⟨"## B", "\n\ntext2", []⟩]⟩ ∧
    ([⟨"# A", "\n\ntext1", []⟩, ⟨"## B", "\n\ntext2", []⟩] : List Section) ≠
      [⟨"A", "text1", []⟩, ⟨"B", "text2", []⟩] := by
  refine ⟨by rfl, by decide⟩

/-- C4, amended. Two-section split. For a chunk list made of a top-level heading
(level 1 or 2) with text A, a body chunk (level 7) with text t1, a top-level heading
with text B and a body chunk with text t2, all texts non-empty, with increasing
sequence indices and with each heading of at most 600 pseudo-tokens (so that the
running counter does not exceed 600 when a body chunk arrives), `processPage` returns
exactly two sections, in order and none of them "CONTINUED": the first titled with the
marker of its level, a space and A, with content a blank line followed by t1; the
second likewise from B and t2. -/
theorem processPage_two_sections (r1 r2 r3 r4 A t1 B t2 : String) (i1 i2 i3 i4 l1 l3 : Int)
    (hl1 : l1 = 1 ∨ l1 = 2) (hl3 : l3 = 1 ∨ l3 = 2)
    (hA : A ≠ "") (ht1 : t1 ≠ "") (hB : B ≠ "") (ht2 : t2 ≠ "")
    (h12 : i1 < i2) (h23 : i2 < i3) (h34 : i3 < i4)
    (hAtok : CountPseudoTokens A ≤ MAX_SECTION_PSEUDO_TOKENS)
    (hBtok : CountPseudoTokens B ≤ MAX_SECTION_PSEUDO_TOKENS) :
    processPage [⟨r1, A, i1, l1⟩, ⟨r2, t1, i2, 7⟩, ⟨r3, B, i3, l3⟩, ⟨r4, t2, i4, 7⟩] =
      .ok ⟨"", leaderOf l1 ++ A,
        [⟨leaderOf l1 ++ A, "\n\n" ++ t1, []⟩, ⟨leaderOf l3 ++ B, "\n\n" ++ t2, []⟩]⟩ := by
  have hsort : sortByIndex [⟨r1, A, i1, l1⟩, ⟨r2, t1, i2, 7⟩, ⟨r3, B, i3, l3⟩, ⟨r4, t2, i4, 7⟩]
      = [⟨r1, A, i1, l1⟩, ⟨r2, t1, i2, 7⟩, ⟨r3, B, i3, l3⟩, ⟨r4, t2, i4, 7⟩] := by
    simp [sortByIndex, List.insertionSort, List.orderedInsert, le_of_lt h12, le_of_lt h23,
      le_of_lt h34]
  have hfilter : filterEmptyChunks
      [⟨r1, A, i1, l1⟩, ⟨r2, t1, i2, 7⟩, ⟨r3, B, i3, l3⟩, ⟨r4, t2, i4, 7⟩]
      = [⟨r1, A, i1, l1⟩, ⟨r2, t1, i2, 7⟩, ⟨r3, B, i3, l3⟩, ⟨r4, t2, i4, 7⟩] := by
    simp [filterEmptyChunks, List.filter, utf8ByteSize_pos_iff, hA, ht1, hB, ht2]
  have hprep : prepareChunks
      [⟨r1, A, i1, l1⟩, ⟨r2, t1, i2, 7⟩, ⟨r3, B, i3, l3⟩, ⟨r4, t2, i4, 7⟩]
      = .ok [⟨r1, leaderOf l1 ++ A, i1, l1⟩, ⟨r2, t1, i2, 7⟩,
              ⟨r3, leaderOf l3 ++ B, i3, l3⟩, ⟨r4, t2, i4, 7⟩] := by
    simp only [prepareChunks, hsort, hfilter, appendLeaders, appendLeader_heading _ _ _ _ hl1,
      appendLeader_heading _ _ _ _ hl3, appendLeader_body]
  have hl1lt : l1 < 3 := by rcases hl1 with h | h <;> omega
  have hl3lt : l3 < 3 := by rcases hl3 with h | h <;> omega
  have hAle : ¬ CountPseudoTokens (leaderOf l1 ++ A) > MAX_SECTION_PSEUDO_TOKENS := by
    rw [CountPseudoTokens_leader]; omega
  have hBle : ¬ CountPseudoTokens (leaderOf l3 ++ B) > MAX_SECTION_PSEUDO_TOKENS := by
    rw [CountPseudoTokens_leader]; omega
  have h73 : ¬ ((7 : Int) < 3) := by decide
  simp only [processPage, foldSections, hprep, foldChunks, foldStep, initialFoldState, hl1lt,
    hl3lt, h73, hAle, hBle, if_true, if_false]
  simp [finishPage, filterEmptySections, List.filter, utf8ByteSize_pos_iff, empty_append,
    blank_append_ne_empty]

/-- The two-section split on the page of two headings and two paragraphs. -/
theorem processPage_two_sections_witness :
    processPage [⟨"/", "A", 0, 1⟩, ⟨"/", "text1", 1, 7⟩, ⟨"/", "B", 2, 2⟩, ⟨"/", "text2", 3, 7⟩] =
      .ok ⟨"", leaderOf 1 ++ "A",
        [⟨leaderOf 1 ++ "A", "\n\n" ++ "text1", []⟩, ⟨leaderOf 2 ++ "B", "\n\n" ++ "text2", []⟩]⟩ :=
  processPage_two_sections "/" "/" "/" "/" "A" "text1" "B" "text2" 0 1 2 3 1 2
    (Or.inl rfl) (Or.inr rfl) (by decide) (by decide) (by decide) (by decide)
    (by decide) (by decide) (by decide) (by decide) (by decide)

/-! ## Claims about `summarize` -/

theorem flattenSections_foldl (pages : List Page) (acc : List Section) :
    pages.foldl (fun chunks v => chunks ++ v.Sections) acc =
      acc ++ pages.flatMap (fun p => p.Sections) := by
  induction pages generalizing acc with
  | nil => simp
  | cons p rest ih => simp [ih, List.flatMap_cons]

theorem flattenSections_eq (pages : List Page) :
    flattenSections pages = pages.flatMap (fun p => p.Sections) := by
  simp [flattenSections, flattenSections_foldl]

theorem flattenSections_cons (p : Page) (rest : List Page) :
    flattenSections (p :: rest) = p.Sections ++ flattenSections rest := by
  simp [flattenSections_eq, List.flatMap_cons]

theorem itemsOfSections_foldl (secs : List Section) (acc : List String) :
    secs.foldl (fun items s => items ++ [s.Zip]) acc = acc ++ secs.map Section.Zip := by
  induction secs generalizing acc with
  | nil => simp
  | cons s rest ih => simp [ih]

theorem summarizeItems_foldl (content : List Page) (acc : List String) :
    content.foldl (fun items v => v.Sections.foldl (fun items s => items ++ [s.Zip]) items) acc
      = acc ++ (flattenSections content).map Section.Zip := by
  induction content generalizing acc with
  | nil => simp [flattenSections]
  | cons p rest ih =>
    rw [List.foldl_cons, ih, itemsOfSections_foldl, flattenSections_cons]
    simp

theorem summarizeItems_eq (content : List Page) :
    summarizeItems content = (flattenSections content).map Section.Zip := by
  simp [summarizeItems, summarizeItems_foldl]

theorem zipWith_append_drop {α β γ : Type} (f : α → β → γ) :
    ∀ (l1 l2 : List α) (d : List β), l1.length ≤ d.length →
      List.zipWith f (l1 ++ l2) d =
        List.zipWith f l1 d ++ List.zipWith f l2 (d.drop l1.length) := by
  intro l1
  induction l1 with
  | nil => intro l2 d _; simp
  | cons x xs ih =>
    intro l2 d hd
    cases d with
    | nil => simp at hd
    | cons y ys =>
      simp only [List.length_cons, Nat.add_le_add_iff_right] at hd
      simp [ih l2 ys hd]

theorem scatterSections_spec (data : List (List Float64)) :
    ∀ (secs : List Section) (k : Nat), k + secs.length ≤ data.length →
      scatterSections data secs k =
        .ok (List.zipWith withEmbedding secs (data.drop k), k + secs.length) := by
  intro secs
  induction secs with
  | nil => intro k _; simp [scatterSections]
  | cons s rest ih =>
    intro k hk
    simp only [List.length_cons] at hk
    have hlt : k < data.length := by omega
    have hget : data[k]? = some data[k] := List.getElem?_eq_getElem hlt
    have hdrop : data.drop k = data[k] :: data.drop (k + 1) :=
      List.drop_eq_getElem_cons hlt
    simp only [scatterSections, hget, ih (k + 1) (by omega), hdrop, List.zipWith_cons_cons,
      List.length_cons]
    simp [withEmbedding, Nat.add_assoc, Nat.add_comm 1]

theorem scatterPages_spec (data : List (List Float64)) :
    ∀ (pages : List Page) (k : Nat), k + (flattenSections pages).length ≤ data.length →
      ∃ out, scatterPages data pages k = .ok out ∧
        flattenSections out =
          List.zipWith withEmbedding (flattenSections pages) (data.drop k) ∧
        List.Forall₂ (fun p q => q.Route = p.Route ∧ q.Title = p.Title ∧
          q.Sections.length = p.Sections.length) pages out := by
  intro pages
  induction pages with
  | nil =>
    intro k _
    exact ⟨[], rfl, by simp [flattenSections], List.Forall₂.nil⟩
  | cons p rest ih =>
    intro k hk
    rw [flattenSections_cons, List.length_append] at hk
    obtain ⟨out, hout, hflat, hshape⟩ := ih (k + p.Sections.length) (by omega)
    refine ⟨{ p with Sections := List.zipWith withEmbedding p.Sections (data.drop k) } :: out,
      ?_, ?_, ?_⟩
    · simp only [scatterPages, scatterSections_spec data p.Sections k (by omega), hout]
    · rw [flattenSections_cons, flattenSections_cons, hflat,
        zipWith_append_drop withEmbedding p.Sections _ (data.drop k)
          (by rw [List.length_drop]; omega),
        List.drop_drop]
    · refine List.Forall₂.cons ⟨rfl, rfl, ?_⟩ hshape
      simp only [List.length_zipWith, List.length_drop]
      omega

/-- C8. Embedding scatter round trip. The request built by `summarize` holds, as item
`i`, the Title+Content of the `i`-th section in flattened order. For every list of
pages with `N` sections in total and every embedder response of length `N` to that
request, `summarize` returns pages of the same routes, titles and section counts whose
`i`-th section in flattened order is the `i`-th original section with `Embedding`
equal to `response[i]`, for all `i < N`. -/
theorem summarize_scatters_in_request_order
    (CreateEmbeddings : List String → Except String (List (List Float64)))
    (content : List Page) (response : List (List Float64))
    (hres : CreateEmbeddings ((flattenSections content).map Section.Zip) = .ok response)
    (hlen : response.length = (flattenSections content).length) :
    summarizeItems content = (flattenSections content).map Section.Zip ∧
    ∃ out, summarize CreateEmbeddings content = .ok out ∧
      List.Forall₂ (fun p q => q.Route = p.Route ∧ q.Title = p.Title ∧
        q.Sections.length = p.Sections.length) content out ∧
      flattenSections out = List.zipWith withEmbedding (flattenSections content) response ∧
      ∀ i, i < (flattenSections content).length →
        ∃ s e, (flattenSections content)[i]? = some s ∧ response[i]? = some e ∧
          (flattenSections out)[i]? = some ⟨s.Title, s.Content, e⟩ := by
  refine ⟨summarizeItems_eq content, ?_⟩
  obtain ⟨out, hout, hflat, hshape⟩ := scatterPages_spec response content 0 (by omega)
  rw [List.drop_zero] at hflat
  refine ⟨out, ?_, hshape, hflat, ?_⟩
  · simp only [summarize, summarizeItems_eq, hres, hout]
  · intro i hi
    have hi2 : i < response.length := by omega
    refine ⟨(flattenSections content)[i], response[i], List.getElem?_eq_getElem hi,
      List.getElem?_eq_getElem hi2, ?_⟩
    rw [hflat, List.getElem?_zipWith, List.getElem?_eq_getElem hi, List.getElem?_eq_getElem hi2]
    rfl

/-- The scatter on two pages holding three sections and a response of three vectors. -/
theorem summarize_scatters_in_request_order_witness :
    summarizeItems sampleContent = (flattenSections sampleContent).map Section.Zip ∧
    ∃ out, summarize sampleEmbedder sampleContent = .ok out ∧
      List.Forall₂ (fun p q => q.Route = p.Route ∧ q.Title = p.Title ∧
        q.Sections.length = p.Sections.length) sampleContent out ∧
      flattenSections out =
        List.zipWith withEmbedding (flattenSections sampleContent) [[⟨1⟩], [⟨2⟩], [⟨3⟩]] ∧
      ∀ i, i < (flattenSections sampleContent).length →
        ∃ s e, (flattenSections sampleContent)[i]? = some s ∧
          ([[⟨1⟩], [⟨2⟩], [⟨3⟩]] : List (List Float64))[i]? = some e ∧
          (flattenSections out)[i]? = some ⟨s.Title, s.Content, e⟩ :=
  summarize_scatters_in_request_order sampleEmbedder sampleContent [[⟨1⟩], [⟨2⟩], [⟨3⟩]]
    (by rfl) (by rfl)

/-! ## Claims about `ThreadSafeHashSet` -/

theorem Has_Add_self (c : ThreadSafeHashSet) (k : String) : (c.Add k).Has k = true := by
  simp [ThreadSafeHashSet.Add, ThreadSafeHashSet.Has, setTrue]

theorem Has_Add_of_Has (c : ThreadSafeHashSet) (k k2 : String) (h : c.Has k = true) :
    (c.Add k2).Has k = true := by
  unfold ThreadSafeHashSet.Add ThreadSafeHashSet.Has setTrue at *
  by_cases hk : hash k = hash k2
  · rw [hk]; simp
  · simp [Function.update_noteq hk, h]

theorem Has_foldl_Add (ks : List String) :
    ∀ (c : ThreadSafeHashSet) (k : String), c.Has k = true →
      (ks.foldl ThreadSafeHashSet.Add c).Has k = true := by
  induction ks with
  | nil => intro c k h; exact h
  | cons k2 rest ih =>
    intro c k h
    exact ih (c.Add k2) k (Has_Add_of_Has c k k2 h)

/-- C9. HashDeduper add/has, each call one atomic step. For every set state and every
key `k`: `Has k` is true after `Add k` and stays true after any further `Add`s; an
`Add` never makes a present key absent; adding the same key a second time leaves the
state unchanged; and `Has` is false for every key on a set fresh from
`MakeThreadSafeHashSet`. -/
theorem hashSet_add_has :
    (∀ (c : ThreadSafeHashSet) (k : String) (ks : List String),
      ((ks.foldl ThreadSafeHashSet.Add (c.Add k)).Has k) = true) ∧
    (∀ (c : ThreadSafeHashSet) (k k2 : String), c.Has k = true → (c.Add k2).Has k = true) ∧
    (∀ (c : ThreadSafeHashSet) (k : String), (c.Add k).Add k = c.Add k) ∧
    (∀ k : String, MakeThreadSafeHashSet.Has k = false) := by
  refine ⟨?_, Has_Add_of_Has, ?_, ?_⟩
  · intro c k ks
    exact Has_foldl_Add ks (c.Add k) k (Has_Add_self c k)
  · intro c k
    simp [ThreadSafeHashSet.Add, setTrue]
  · intro k
    simp [MakeThreadSafeHashSet, ThreadSafeHashSet.Has, emptyMap]

/-! ## Claims about malformed embeddings -/

theorem rawMatrix_foldl (chunks : List Section) (acc : List Float64) :
    (chunks.foldl (fun raw v => raw ++ v.Embedding) acc).length =
      acc.length + totalComponents chunks := by
  induction chunks generalizing acc with
  | nil => simp [totalComponents]
  | cons s rest ih =>
    rw [List.foldl_cons, ih]
    simp [totalComponents, Nat.add_assoc]

theorem rawMatrix_length (chunks : List Section) :
    (rawMatrix chunks).length = totalComponents chunks := by
  simp [rawMatrix, rawMatrix_foldl]

theorem zeroVector_length (n : Nat) : (zeroVector n).length = n := by
  simp [zeroVector]

/-- C10 as stated fails: a corpus of two sections with embeddings of 1535 and 1537
components has a section of the wrong length, yet the matrix data has 2 * 1536
components, no shape check fails, and a prompt is built and handed to the completion
provider. -/
theorem skewed_embeddings_are_accepted :
    flattenSections skewedDomain.Pages ≠ [] ∧
    (∃ s ∈ flattenSections skewedDomain.Pages, s.Embedding.length ≠ EMBEDDING_LEN) ∧
    ∃ prompt,
      conversationPrompt sampleGetEmbedding [0, 1] sampleConversation skewedDomain
        = .ok prompt ∧
      GetConversationCompletion sampleGetEmbedding [0, 1] echoCompletion sampleConversation
        skewedDomain = .ok prompt := by
  have hflat : flattenSections skewedDomain.Pages =
      [⟨"# A", "\n\ntext1", zeroVector 1535⟩, ⟨"## B", "\n\ntext2", zeroVector 1537⟩] := rfl
  have hdense : NewDense 2 EMBEDDING_LEN
      (rawMatrix [⟨"# A", "\n\ntext1", zeroVector 1535⟩, ⟨"## B", "\n\ntext2", zeroVector 1537⟩])
      = .ok () := by
    simp [NewDense, rawMatrix_length, totalComponents, zeroVector_length, EMBEDDING_LEN]
  have hvec : NewVecDense EMBEDDING_LEN (some (zeroVector 1536)) = .ok () := by
    simp [NewVecDense, zeroVector_length, EMBEDDING_LEN]
  have hsel : selectIndices
      [⟨"# A", "\n\ntext1", zeroVector 1535⟩, ⟨"## B", "\n\ntext2", zeroVector 1537⟩]
      sampleConversation.ZipLog [0, 1] = .ok (6, setTrue (setTrue emptyMap 0) 1) := by
    have h0 : CountPseudoTokens sampleConversation.ZipLog = 2 := by decide
    have h1 : CountPseudoTokens (Section.Zip ⟨"# A", "\n\ntext1", zeroVector 1535⟩) = 2 := by
      decide
    have h2 : CountPseudoTokens (Section.Zip ⟨"## B", "\n\ntext2", zeroVector 1537⟩) = 2 := by
      decide
    simp only [selectIndices, selectLoop, h0]
    simp [h1, h2, MAX_PSEUDO_TOKENS]
  refine ⟨by rw [hflat]; simp, ?_, ?_⟩
  · rw [hflat]
    exact ⟨_, List.mem_cons_self _ _, by simp [zeroVector_length, EMBEDDING_LEN]⟩
  · have hprompt : conversationPrompt sampleGetEmbedding [0, 1] sampleConversation skewedDomain
        = .ok (buildPrompt (flattenSections skewedDomain.Pages)
            (setTrue (setTrue emptyMap 0) 1)
            sampleConversation.ZipLog) := by
      simp only [conversationPrompt, hflat, List.length_cons, List.length_nil, hdense,
        sampleGetEmbedding, hvec, hsel]
      simp
    exact ⟨_, hprompt, by simp only [GetConversationCompletion, hprompt, echoCompletion]⟩

/-- C10, amended. For every corpus with at least one section in which the total number
of embedding components over all sections differs from 1536 times the number of
sections, `GetConversationCompletion` panics with the shape error of `mat.NewDense`
while building the similarity matrix, whatever the providers and the ranking; no prompt
and no completion is produced. Lengths are checked in total only, not per section. -/
theorem malformed_total_is_fatal
    (GetEmbedding : String → Except String (Option (List Float64)))
    (originalIndices : List Nat) (GetAgentCompletion : String → Except String String)
    (conv : Conversation) (d : Domain)
    (hne : flattenSections d.Pages ≠ [])
    (hbad : totalComponents (flattenSections d.Pages) ≠
      EMBEDDING_LEN * (flattenSections d.Pages).length) :
    conversationPrompt GetEmbedding originalIndices conv d = .error "mat: dimension mismatch" ∧
    GetConversationCompletion GetEmbedding originalIndices GetAgentCompletion conv d =
      .error "mat: dimension mismatch" := by
  have hlen : ¬ (flattenSections d.Pages).length = 0 := by
    intro h
    exact hne (List.length_eq_zero.mp h)
  have hdense : NewDense (flattenSections d.Pages).length EMBEDDING_LEN
      (rawMatrix (flattenSections d.Pages)) = .error "mat: dimension mismatch" := by
    have hne2 : ¬ (flattenSections d.Pages).length * EMBEDDING_LEN =
        totalComponents (flattenSections d.Pages) := by
      intro h
      apply hbad
      rw [← h, Nat.mul_comm]
    have h3 : ¬ (EMBEDDING_LEN = 0) := by decide
    simp only [NewDense, rawMatrix_length, hlen, h3, or_self, if_false, ne_eq, hne2,
      not_false_eq_true, if_true]
  have hprompt : conversationPrompt GetEmbedding originalIndices conv d =
      .error "mat: dimension mismatch" := by
    simp only [conversationPrompt, hlen, if_false, hdense]
  exact ⟨hprompt, by simp only [GetConversationCompletion, hprompt]⟩

/-- A single section with a three-component embedding makes the request fail. -/
theorem malformed_total_is_fatal_witness :
    flattenSections shortDomain.Pages ≠ [] ∧
    totalComponents (flattenSections shortDomain.Pages) ≠
      EMBEDDING_LEN * (flattenSections shortDomain.Pages).length ∧
    conversationPrompt sampleGetEmbedding [0] sampleConversation shortDomain =
      .error "mat: dimension mismatch" ∧
    GetConversationCompletion sampleGetEmbedding [0] echoCompletion sampleConversation
      shortDomain = .error "mat: dimension mismatch" :=
  ⟨by decide, by decide,
   malformed_total_is_fatal sampleGetEmbedding [0] echoCompletion sampleConversation
     shortDomain (by decide) (by decide)⟩

/-! ## The prompt is built whenever the shapes fit -/

/-- For a non-empty corpus whose matrix data has the right total length, a provider
answer of the right length and a ranked order that is a permutation of the section
indices, `GetConversationCompletion` reaches the completion provider with the prompt
built from the walk's selection. -/
theorem conversationPrompt_returns
    (GetEmbedding : String → Except String (Option (List Float64)))
    (originalIndices : List Nat) (conv : Conversation) (d : Domain)
    (embeddingRaw : List Float64)
    (hne : flattenSections d.Pages ≠ [])
    (htotal : totalComponents (flattenSections d.Pages) =
      EMBEDDING_LEN * (flattenSections d.Pages).length)
    (hemb : GetEmbedding conv.ZipLog = .ok (some embeddingRaw))
    (hlen : embeddingRaw.length = EMBEDDING_LEN)
    (hperm : originalIndices.Perm (List.range (flattenSections d.Pages).length)) :
    ∃ tokens indicesToAdd,
      selectIndices (flattenSections d.Pages) conv.ZipLog originalIndices =
        .ok (tokens, indicesToAdd) ∧
      conversationPrompt GetEmbedding originalIndices conv d =
        .ok (buildPrompt (flattenSections d.Pages) indicesToAdd conv.ZipLog) := by
  have hlt : ∀ v ∈ originalIndices, v < (flattenSections d.Pages).length := fun v hv =>
    List.mem_range.mp (hperm.mem_iff.mp hv)
  obtain ⟨k, _, hrun, _, _⟩ := selectLoop_spec (flattenSections d.Pages) originalIndices
    (CountPseudoTokens conv.ZipLog) emptyMap hlt
  have hlen0 : ¬ (flattenSections d.Pages).length = 0 := by
    intro h
    exact hne (List.length_eq_zero.mp h)
  have hdense : NewDense (flattenSections d.Pages).length EMBEDDING_LEN
      (rawMatrix (flattenSections d.Pages)) = .ok () := by
    have h2 : (flattenSections d.Pages).length * EMBEDDING_LEN =
        totalComponents (flattenSections d.Pages) := by
      rw [htotal, Nat.mul_comm]
    have h3 : ¬ (EMBEDDING_LEN = 0) := by decide
    simp only [NewDense, rawMatrix_length, hlen0, h3, or_self, if_false, h2, ne_eq,
      not_true_eq_false]
  have hvec : NewVecDense EMBEDDING_LEN (some embeddingRaw) = .ok () := by
    simp [NewVecDense, hlen, EMBEDDING_LEN]
  refine ⟨_, _, hrun, ?_⟩
  have hsel : selectIndices (flattenSections d.Pages) conv.ZipLog originalIndices = _ := hrun
  simp only [conversationPrompt, hlen0, if_false, hdense, hemb, hvec, hsel]

/-! ## Claims about the dedup key -/

theorem split_at_first_slash :
    ∀ (t1 t2 r1 r2 : List Char),
      '/' ∉ t1 → '/' ∉ t2 →
      (r1 = [] ∨ r1.head? = some '/') → (r2 = [] ∨ r2.head? = some '/') →
      t1 ++ r1 = t2 ++ r2 → t1 = t2 ∧ r1 = r2 := by
  intro t1
  induction t1 with
  | nil =>
    intro t2 r1 r2 _ h2 hr1 _ heq
    cases t2 with
    | nil => exact ⟨rfl, by simpa using heq⟩
    | cons d t2 =>
      exfalso
      simp only [List.nil_append, List.cons_append] at heq
      rcases hr1 with hr1 | hr1
      · rw [hr1] at heq; simp at heq
      · rw [heq] at hr1
        simp only [List.head?_cons, Option.some.injEq] at hr1
        exact h2 (by rw [hr1]; exact List.mem_cons_self _ _)
  | cons c t1 ih =>
    intro t2 r1 r2 h1 h2 hr1 hr2 heq
    cases t2 with
    | nil =>
      exfalso
      simp only [List.nil_append, List.cons_append] at heq
      rcases hr2 with hr2 | hr2
      · rw [hr2] at heq; simp at heq
      · rw [← heq] at hr2
        simp only [List.head?_cons, Option.some.injEq] at hr2
        exact h1 (by rw [hr2]; exact List.mem_cons_self _ _)
    | cons d t2 =>
      simp only [List.cons_append, List.cons.injEq] at heq
      obtain ⟨hcd, hrest⟩ := heq
      have := ih t2 r1 r2 (fun h => h1 (List.mem_cons_of_mem _ h))
        (fun h => h2 (List.mem_cons_of_mem _ h)) hr1 hr2 hrest
      exact ⟨by rw [hcd, this.1], this.2⟩

theorem isUrlPath_data {route : String} (h : isUrlPath route) :
    route.data = [] ∨ route.data.head? = some '/' := by
  rcases h with h | h
  · left; rw [h]
  · right; exact h

/-- C11 as stated fails: the text `and/or` on the route `/faq` and the text `and` on
the route `/or/faq` are different (text, route) pairs whose routes both start with a
slash, and they have the same key; once the first is offered to a fresh hash set, the
second is not sent on the stream. -/
theorem distinct_pairs_share_a_key :
    isUrlPath slashTextChunk.route ∧ isUrlPath slashRouteChunk.route ∧
    slashTextChunk.text ≠ slashRouteChunk.text ∧
    slashTextChunk.route ≠ slashRouteChunk.route ∧
    dedupKey slashTextChunk = dedupKey slashRouteChunk ∧
    (offerChunk (offerChunk MakeThreadSafeHashSet slashTextChunk).1 slashRouteChunk).2
      = none := by
  have hkey : dedupKey slashTextChunk = dedupKey slashRouteChunk := by decide
  have hfresh : MakeThreadSafeHashSet.Has (dedupKey slashTextChunk) = false := by
    simp [MakeThreadSafeHashSet, ThreadSafeHashSet.Has, emptyMap]
  refine ⟨Or.inr (by decide), Or.inr (by decide), by decide, by decide, hkey, ?_⟩
  simp [offerChunk, hfresh, ← hkey, Has_Add_self]

/-- C11, amended. For any two chunks whose routes are URL paths (empty or starting
with a slash) and whose texts contain no slash, the key handed to the hash set for one
equals the key for the other only if the two chunks have the same text and the same
route; conversely the same text and route always give the same key. -/
theorem dedupKey_identifies_pair (c1 c2 : pageChunk)
    (hr1 : isUrlPath c1.route) (hr2 : isUrlPath c2.route)
    (ht1 : '/' ∉ c1.text.data) (ht2 : '/' ∉ c2.text.data) :
    dedupKey c1 = dedupKey c2 ↔ (c1.text = c2.text ∧ c1.route = c2.route) := by
  constructor
  · intro h
    have hd := congrArg String.data h
    simp only [dedupKey, String.data_append] at hd
    have := split_at_first_slash _ _ _ _ ht1 ht2 (isUrlPath_data hr1) (isUrlPath_data hr2) hd
    exact ⟨String.ext this.1, String.ext this.2⟩
  · intro h
    simp only [dedupKey, h.1, h.2]

/-- Two findings of the same heading on the same page have the same key. -/
theorem dedupKey_identifies_pair_witness :
    isUrlPath docsHeading.route ∧ isUrlPath docsHeadingAgain.route ∧
    '/' ∉ docsHeading.text.data ∧ '/' ∉ docsHeadingAgain.text.data ∧
    (dedupKey docsHeading = dedupKey docsHeadingAgain ↔
      (docsHeading.text = docsHeadingAgain.text ∧
        docsHeading.route = docsHeadingAgain.route)) :=
  ⟨Or.inr (by decide), Or.inr (by decide), by decide, by decide,
   dedupKey_identifies_pair docsHeading docsHeadingAgain (Or.inr (by decide))
     (Or.inr (by decide)) (by decide) (by decide)⟩

/-! ## Claims about the aggregator -/

theorem aggregatorStep_chunksAt (st : AggregatorState) (chunk : pageChunk) (route : String) :
    chunksAt (aggregatorStep st chunk).chunk_map route =
      chunksAt st.chunk_map route ++
        (if st.chunksEncountered + 1 < MAX_CHUNKS_ARBITRARY ∧ chunk.route = route
          then [chunk] else []) := by
  unfold aggregatorStep
  by_cases hlt : st.chunksEncountered + 1 < MAX_CHUNKS_ARBITRARY
  · by_cases hr : chunk.route = route
    · subst hr
      simp [hlt, chunksAt]
    · have hr2 : route ≠ chunk.route := fun h => hr h.symm
      simp [hlt, hr, chunksAt, Function.update_noteq hr2]
  · simp [hlt]

theorem aggregatorStep_encountered (st : AggregatorState) (chunk : pageChunk) :
    (aggregatorStep st chunk).chunksEncountered = st.chunksEncountered + 1 := by
  unfold aggregatorStep
  by_cases hlt : st.chunksEncountered + 1 < MAX_CHUNKS_ARBITRARY <;> simp [hlt]

theorem foldl_aggregatorStep_spec (received : List pageChunk) :
    ∀ (st : AggregatorState) (route : String),
      (received.foldl aggregatorStep st).chunksEncountered =
        st.chunksEncountered + received.length ∧
      chunksAt (received.foldl aggregatorStep st).chunk_map route =
        chunksAt st.chunk_map route ++
          (received.take (MAX_CHUNKS_ARBITRARY - 1 - st.chunksEncountered)).filter
            (fun c => decide (c.route = route)) := by
  induction received with
  | nil => intro st route; simp
  | cons c rest ih =>
    intro st route
    obtain ⟨hcount, hmap⟩ := ih (aggregatorStep st c) route
    rw [List.foldl_cons]
    refine ⟨?_, ?_⟩
    · rw [hcount, aggregatorStep_encountered, List.length_cons]; omega
    · rw [hmap, aggregatorStep_chunksAt, aggregatorStep_encountered]
      by_cases hlt : st.chunksEncountered + 1 < MAX_CHUNKS_ARBITRARY
      · have hsucc : MAX_CHUNKS_ARBITRARY - 1 - st.chunksEncountered =
            (MAX_CHUNKS_ARBITRARY - 1 - (st.chunksEncountered + 1)) + 1 := by omega
        rw [hsucc, List.take_succ_cons]
        by_cases hr : c.route = route
        · simp [hlt, hr, List.filter_cons]
        · simp [hlt, hr, List.filter_cons]
      · have hzero : MAX_CHUNKS_ARBITRARY - 1 - st.chunksEncountered = 0 := by omega
        have hzero2 : MAX_CHUNKS_ARBITRARY - 1 - (st.chunksEncountered + 1) = 0 := by omega
        simp [hlt, hzero, hzero2]

/-- The aggregator keeps, under each route and in arrival order, the chunks of that
route among the first 3999 received, and nothing else. -/
theorem aggregate_keeps_first_3999 (received : List pageChunk) (route : String) :
    chunksAt (aggregate received).chunk_map route =
      (received.take (MAX_CHUNKS_ARBITRARY - 1)).filter (fun c => decide (c.route = route)) ∧
    (aggregate received).chunksEncountered = received.length := by
  obtain ⟨hcount, hmap⟩ := foldl_aggregatorStep_spec received initialAggregatorState route
  refine ⟨?_, ?_⟩
  · unfold aggregate
    rw [hmap]
    simp [initialAggregatorState, chunksAt]
  · unfold aggregate
    rw [hcount]
    simp [initialAggregatorState]

theorem fullStream_length : fullStream.length = 4000 := by
  simp [fullStream]

theorem fullStream_route : ∀ c ∈ fullStream, c.route = "/" := by
  intro c hc
  simp only [fullStream, List.mem_map] at hc
  obtain ⟨i, _, rfl⟩ := hc
  rfl

/-- C12 on a stream of exactly 4000 chunks, all on the route `/`: the aggregator keeps
the first 3999 of them, in arrival order, and drops the 4000th, where
`min(4000, MAX_CHUNKS_ARBITRARY)` chunks were to be kept. -/
theorem aggregator_keeps_one_chunk_less :
    fullStream.length = min 4000 MAX_CHUNKS_ARBITRARY ∧
    chunksAt (aggregate fullStream).chunk_map "/" = fullStream.take 3999 ∧
    (chunksAt (aggregate fullStream).chunk_map "/").length = 3999 ∧
    numberedChunk 3999 ∈ fullStream ∧
    numberedChunk 3999 ∉ chunksAt (aggregate fullStream).chunk_map "/" := by
  have hkeep : chunksAt (aggregate fullStream).chunk_map "/" = fullStream.take 3999 := by
    rw [(aggregate_keeps_first_3999 fullStream "/").1]
    have h : MAX_CHUNKS_ARBITRARY - 1 = 3999 := by decide
    rw [h, List.filter_eq_self]
    intro c hc
    simpa using fullStream_route c (List.mem_of_mem_take hc)
  refine ⟨?_, hkeep, ?_, ?_, ?_⟩
  · rw [fullStream_length]; decide
  · rw [hkeep, List.length_take, fullStream_length]
    decide
  · simp only [fullStream, List.mem_map, List.mem_range]
    exact ⟨3999, by omega, rfl⟩
  · rw [hkeep]
    intro hmem
    simp only [fullStream, ← List.map_take, List.mem_map] at hmem
    obtain ⟨i, hi, heq⟩ := hmem
    have hlt : i < 3999 := by
      rw [List.take_range] at hi
      exact List.mem_range.mp (by simpa using hi)
    have : i = 3999 := by
      have := congrArg pageChunk.index heq
      simp only [numberedChunk] at this
      exact_mod_cast this
    omega

end Scraper
